import Mathlib

/-!
Verification of the query-construction and result-rendering engine of
`rhsecapi.py` (a command-line client for the Red Hat Security Data API).

Text is modelled as `List Char`; Python dictionaries returned by the API are
modelled as structures with optional fields; each `self.Print(...)` call is
modelled as appending one chunk to a list of output chunks.
-/

set_option maxHeartbeats 1000000

/-- Python text is modelled as a list of characters. -/
abbrev Str := List Char

/-- Convert a Lean string literal into the `List Char` text model. -/
def lit (s : String) : Str := s.toList

/-- The six characters Python 2 treats as whitespace in `str.strip()` and in
`textwrap`'s whitespace table (`'\t\n\x0b\x0c\r '`). -/
def pyIsSpace (c : Char) : Bool :=
  c == ' ' || c == '\t' || c == '\n' || c == '\x0b' || c == '\x0c' || c == '\r'

/-- Python `str.strip()`: drop leading and trailing whitespace. -/
def pyStrip (s : Str) : Str :=
  ((s.dropWhile pyIsSpace).reverse.dropWhile pyIsSpace).reverse

/-- Python `str.lstrip(chars)`: drop every leading character that is a member
of the character set `chars` (NOT removal of a literal prefix). -/
def pyLstrip (chars : List Char) (s : Str) : Str :=
  s.dropWhile (fun c => chars.contains c)

/-- Worker for `collapseNL`; the flag records whether we are inside a run of
newline characters (so that each maximal run is replaced exactly once). -/
def collapseNLGo : Bool → Str → Str
  | _, [] => []
  | inRun, c :: r =>
    if c == '\n' then
      if inRun then collapseNLGo true r
      else ' ' :: ' ' :: collapseNLGo true r
    else c :: collapseNLGo false r

/-- `re.sub(r"\n+", "  ", text)`: replace each maximal run of newline
characters by two spaces. -/
def collapseNL (s : Str) : Str := collapseNLGo false s

/-- CPython 2.7 `str.expandtabs()` with the default tab size 8 (the worker
tracks the current column): each tab becomes spaces up to the next multiple
of 8; a newline or carriage return resets the column, every other character
advances it by one. -/
def pyExpandTabsGo : Nat → Str → Str
  | _, [] => []
  | col, c :: r =>
    if c == '\t' then
      List.replicate (8 - col % 8) ' ' ++ pyExpandTabsGo (col + (8 - col % 8)) r
    else if c == '\n' || c == '\r' then c :: pyExpandTabsGo 0 r
    else c :: pyExpandTabsGo (col + 1) r

/-- `str.expandtabs()` starting at column 0. -/
def pyExpandTabs (s : Str) : Str := pyExpandTabsGo 0 s

/-- `textwrap`'s `_munge_whitespace` with the default settings: expand tabs
(`expand_tabs=True`), then replace every whitespace character by a single
space (`replace_whitespace=True`). -/
def munge (s : Str) : Str :=
  (pyExpandTabs s).map (fun c => if pyIsSpace c then ' ' else c)

/-- Worker for `chunksOf`: accumulate the current maximal run of characters
of the same kind (whitespace vs. non-whitespace). -/
def chunksGo (k : Bool) (cur : Str) : Str → List Str
  | [] => [cur]
  | c :: r =>
    if pyIsSpace c == k then chunksGo k (cur ++ [c]) r
    else cur :: chunksGo (pyIsSpace c) [c] r

/-- The list of maximal runs of whitespace and of non-whitespace
characters, in order.  This is what `textwrap`'s `_split` produces on text
containing no `-` character, where `wordsep_re`'s hyphen and em-dash
alternatives cannot match (`pySplit_no_dash` below proves the agreement
with the full splitter `pySplit`). -/
def chunksOf : Str → List Str
  | [] => []
  | c :: r => chunksGo (pyIsSpace c) [c] r

/-- Python 2.7 `\w` for a pattern compiled without `re.UNICODE`: ASCII
letters, digits and the underscore. -/
def pyIsWordCh (c : Char) : Bool := c.isAlphanum || c == '_'

/-- The regex class `[^0-9\W]`: word characters that are not digits. -/
def pyIsLetter (c : Char) : Bool := c.isAlpha || c == '_'

/-- The regex class `[^\s\w]`. -/
def pyIsPunct (c : Char) : Bool := !pyIsSpace c && !pyIsWordCh c

/-- The em-dash lookbehind class `[\w\!\"\'\&\.\,\?]` of
`textwrap.TextWrapper.wordsep_re`. -/
def dashBehind (c : Char) : Bool :=
  pyIsWordCh c || c == '!' || c == '"' || c == '\'' || c == '&' || c == '.' ||
    c == ',' || c == '?'

/-- Match the hyphenated-word alternative
`[^\s\w]*\w+[^0-9\W]-(?=\w+[^0-9\W])` of `wordsep_re` at the start of
`s`: greedily take the punctuation run and the word run (the disjoint
character classes admit no other backtracking), require at least two word
characters the last of which is a letter, a `-` right after them, and the
lookahead (word characters with a letter at an index past the first, which
is exactly where `\w+` then `[^0-9\W]` can land).  Returns the length of
the separator match. -/
def matchHyphen (s : Str) : Option Nat :=
  let p := s.takeWhile pyIsPunct
  let w := (s.drop p.length).takeWhile pyIsWordCh
  match s.drop (p.length + w.length) with
  | c :: la =>
    if c == '-' && decide (2 ≤ w.length) && pyIsLetter (w.getLastD ' ') &&
        ((la.takeWhile pyIsWordCh).drop 1).any pyIsLetter
    then some (p.length + w.length + 1) else none
  | [] => none

/-- Match the em-dash alternative `(?<=[\w\!\"\'\&\.\,\?])-{2,}(?=\w)`
of `wordsep_re` at the start of `s`; `prev` is the character just before the
current position (the lookbehind).  The greedy `-{2,}` takes the whole
hyphen run (a shorter match would put a hyphen where the lookahead wants a
word character). -/
def matchDash (prev : Option Char) (s : Str) : Option Nat :=
  match prev with
  | none => none
  | some pc =>
    if dashBehind pc then
      let h := s.takeWhile (fun c => c == '-')
      match s.drop h.length with
      | c :: _ => if decide (2 ≤ h.length) && pyIsWordCh c then some h.length else none
      | [] => none
    else none

/-- `wordsep_re.split` followed by `filter(None, ...)` (textwrap's
`_split`): scan left to right; at each position try, in the pattern's
alternation order, a whitespace run `\s+`, the hyphenated-word separator,
and the em-dash separator; a character starting no match joins the current
text chunk.  Empty text chunks between adjacent separators are never
emitted, matching the `filter`.  `fuel` bounds the recursion; every step
consumes at least one character, so `s.length` suffices. -/
def pySplitGo : Nat → Option Char → Str → Str → List Str
  | _, _, acc, [] => if acc.isEmpty then [] else [acc]
  | 0, _, acc, _ :: _ => if acc.isEmpty then [] else [acc]
  | fuel + 1, prev, acc, c :: r =>
    if pyIsSpace c then
      (if acc.isEmpty then [] else [acc]) ++
        ((c :: r).takeWhile pyIsSpace) ::
          pySplitGo fuel (some (((c :: r).takeWhile pyIsSpace).getLastD ' ')) []
            ((c :: r).drop ((c :: r).takeWhile pyIsSpace).length)
    else
      match matchHyphen (c :: r) with
      | some n =>
        (if acc.isEmpty then [] else [acc]) ++
          ((c :: r).take n) :: pySplitGo fuel (some '-') [] ((c :: r).drop n)
      | none =>
        match matchDash prev (c :: r) with
        | some n =>
          (if acc.isEmpty then [] else [acc]) ++
            ((c :: r).take n) :: pySplitGo fuel (some '-') [] ((c :: r).drop n)
        | none => pySplitGo fuel (some c) (acc ++ [c]) r

/-- `textwrap._split`: the nonempty pieces and separators of the text, in
order. -/
def pySplit (s : Str) : List Str := pySplitGo s.length none [] s

/-- A chunk that Python's `chunk.strip() == ''` test classifies as
whitespace-only (an empty chunk also passes this test). -/
def isWsChunk (ch : Str) : Bool := ch.all pyIsSpace

/-- The chunk-consuming inner loop of `textwrap._wrap_chunks`: pop chunks
onto the current line while they fit within the content width `cw`. -/
def fillLine (cw : Int) (acc : List Str) (len : Nat) : List Str → List Str × Nat × List Str
  | [] => (acc, len, [])
  | ch :: rest =>
    if (len : Int) + ch.length ≤ cw then fillLine cw (acc ++ [ch]) (len + ch.length) rest
    else (acc, len, ch :: rest)

/-- `textwrap`'s single trailing-whitespace drop: if the last chunk of the
current line is whitespace-only, delete it (one chunk only). -/
def dropTrailingWs (cur : List Str) : List Str :=
  match cur.reverse with
  | [] => []
  | ch :: rest => if isWsChunk ch then rest.reverse else cur

/-- One iteration of `textwrap._wrap_chunks`'s outer loop: optionally drop a
leading whitespace chunk (if some line was already emitted), fill the line,
apply `_handle_long_word` (with `break_long_words=True`), drop one trailing
whitespace chunk, and emit the line if it is nonempty.  `cw` is the content
width (total width minus the 3-character indent), which can be negative. -/
def wrapStep (cw : Int) (hasLines : Bool) (chunks : List Str) : Option (List Str) × List Str :=
  let chunks1 := match chunks with
    | ch :: rest => if hasLines && isWsChunk ch then rest else chunks
    | [] => []
  let f := fillLine cw [] 0 chunks1
  let cur := f.1
  let len := f.2.1
  let rest := f.2.2
  let step2 : List Str × List Str := match rest with
    | ch :: rest2 =>
      if (ch.length : Int) > cw then
        let spaceLeft : Nat := if cw < 1 then 1 else (cw - len).toNat
        (cur ++ [ch.take spaceLeft], ch.drop spaceLeft :: rest2)
      else (cur, ch :: rest2)
    | [] => (cur, [])
  let cur3 := dropTrailingWs step2.1
  (if cur3.isEmpty then none else some cur3, step2.2)

/-- Fuel measure for the wrap loop: total character count plus chunk count. -/
def mes (chunks : List Str) : Nat := (chunks.map List.length).sum + chunks.length

/-- The outer loop of `textwrap._wrap_chunks`, with explicit fuel (the fuel
passed by `pyWrap` always suffices for nonnegative content widths; running
out of fuel corresponds to the actual nontermination of CPython's loop,
reachable only for total widths below 3). -/
def wrapGo (cw : Int) : Nat → Bool → List Str → List (List Str)
  | 0, _, _ => []
  | _, _, [] => []
  | fuel + 1, hasLines, chunks =>
    let s := wrapStep cw hasLines chunks
    match s.1 with
    | some l => l :: wrapGo cw fuel true s.2
    | none => wrapGo cw fuel hasLines s.2

/-- `TextWrapper(width, initial_indent="   ", subsequent_indent="   ").wrap`:
line contents as chunk lists. -/
def pyWrapChunks (width : Nat) (text : Str) : List (List Str) :=
  let chunks := pySplit (munge text)
  wrapGo ((width : Int) - 3) (mes chunks + 1) false chunks

/-- Rendered characters of one wrapped line (without the indent). -/
def lineChars (l : List Str) : Str := l.flatten

/-- `TextWrapper(width, "   ", "   ").wrap`: the list of rendered lines,
each carrying the fixed 3-space indent. -/
def pyWrap (width : Nat) (text : Str) : List Str :=
  (pyWrapChunks width text).map (fun l => lit "   " ++ lineChars l)

/-- A long free-text field of a record: the API returns either one string or
a list of string fragments. -/
inductive TextVal where
  | str (s : Str)
  | list (l : List Str)
deriving DecidableEq

/-- The fragment-joining front half of `RHSecApiParse._stripjoin`: strip each
fragment and append a two-space separator after each one (list input), or
strip the single input string. -/
def stripjoinRaw : TextVal → Str
  | .str s => pyStrip s
  | .list l => (l.map (fun f => pyStrip f ++ lit "  ")).flatten

/-- `RHSecApiParse._stripjoin`: join/strip the input, collapse newline runs
into two spaces, and (when wrapping is enabled, `w ≠ 0`) re-flow through the
text wrapper, prefixing a newline and joining the wrapped lines with
newlines.  `w = 0` models a falsy `self.w` (wrapping disabled). -/
def stripjoin (w : Nat) (v : TextVal) : Str :=
  let text := collapseNL (stripjoinRaw v)
  if w = 0 then text
  else '\n' :: (List.intercalate (lit "\n") (pyWrap w text))

/-- A field that the API returns either as one bare JSON object or as a list
of objects (`affected_release`, `package_state`). -/
inductive MultiVal (α : Type) where
  | single (a : α)
  | many (l : List α)
deriving DecidableEq

/-- The `isinstance(x, dict) → [x]` normalization performed inline in
`print_cve`: a bare mapping becomes a one-element list, a list is unchanged. -/
def normalizeMulti {α : Type} : MultiVal α → List α
  | .single a => [a]
  | .many l => l

/-- The `cvss` sub-object (`print_cve` reads both keys unconditionally). -/
structure CvssData where
  cvss_base_score : Str
  cvss_scoring_vector : Str
deriving DecidableEq

/-- The `cvss3` sub-object. -/
structure Cvss3Data where
  cvss3_base_score : Str
  cvss3_scoring_vector : Str
deriving DecidableEq

/-- The `bugzilla` sub-object. -/
structure BugzillaData where
  id : Str
  url : Str
deriving DecidableEq

/-- One entry of `affected_release` (`product_name` and `advisory` are read
unconditionally; `package` is guarded by `has_key`). -/
structure ReleaseData where
  product_name : Str
  package : Option Str
  advisory : Str
deriving DecidableEq

/-- One entry of `package_state` (`product_name` and `fix_state` are read
unconditionally; `package_name` is guarded by `has_key`). -/
structure PkgStateData where
  product_name : Str
  package_name : Option Str
  fix_state : Str
deriving DecidableEq

/-- The JSON record returned for one identifier.  Every field is optional
(`none` models an absent key). -/
structure CveRecord where
  name : Option Str := none
  threat_severity : Option Str := none
  public_date : Option Str := none
  cwe : Option Str := none
  cvss : Option CvssData := none
  cvss3 : Option Cvss3Data := none
  bugzilla : Option BugzillaData := none
  acknowledgement : Option TextVal := none
  details : Option TextVal := none
  statement : Option TextVal := none
  affected_release : Option (MultiVal ReleaseData) := none
  package_state : Option (MultiVal PkgStateData) := none
deriving DecidableEq

/-- Python `jsoninput.has_key(field)` for the selectable field names. -/
def hasFieldRec (j : CveRecord) (f : Str) : Bool :=
  if f = lit "threat_severity" then j.threat_severity.isSome
  else if f = lit "public_date" then j.public_date.isSome
  else if f = lit "cwe" then j.cwe.isSome
  else if f = lit "cvss" then j.cvss.isSome
  else if f = lit "cvss3" then j.cvss3.isSome
  else if f = lit "bugzilla" then j.bugzilla.isSome
  else if f = lit "acknowledgement" then j.acknowledgement.isSome
  else if f = lit "details" then j.details.isSome
  else if f = lit "statement" then j.statement.isSome
  else if f = lit "affected_release" then j.affected_release.isSome
  else if f = lit "package_state" then j.package_state.isSome
  else if f = lit "name" then j.name.isSome
  else false

/-- Settings of one `RHSecApiParse` instance (resolved CLI configuration). -/
structure ParseCfg where
  desiredFields : List Str
  printUrls : Bool := false
  rawOutput : Bool := false
  onlyCount : Bool := false
  verbose : Bool := false
  w : Nat := 0

/-- `RHSecApiParse._check_field`: the field is desired AND exists in the
record. -/
def check_field (cfg : ParseCfg) (f : Str) (j : CveRecord) : Bool :=
  List.elem f cfg.desiredFields && hasFieldRec j f

/-- The `threat_severity` block of `print_cve`. -/
def sevPart (cfg : ParseCfg) (j : CveRecord) : List Str :=
  if check_field cfg (lit "threat_severity") j then
    let url := if cfg.printUrls then lit " (https://access.redhat.com/security/updates/classification)" else []
    [lit "  IMPACT:  " ++ (j.threat_severity.getD []) ++ url ++ lit "\n"]
  else []

/-- The `public_date` block of `print_cve`. -/
def datePart (cfg : ParseCfg) (j : CveRecord) : List Str :=
  if check_field cfg (lit "public_date") j then
    [lit "  PUBLIC_DATE:  " ++ (j.public_date.getD []) ++ lit "\n"]
  else []

/-- The `cwe` block of `print_cve`: the URL substitutes
`j['cwe'].lstrip("CWE-")` (character-set strip) into the definitions-site
template. -/
def cwePart (cfg : ParseCfg) (j : CveRecord) : List Str :=
  if check_field cfg (lit "cwe") j then
    let cweId := j.cwe.getD []
    let url := if cfg.printUrls then
        lit " (http://cwe.mitre.org/data/definitions/" ++ pyLstrip (lit "CWE-") cweId ++ lit ".html)"
      else []
    [lit "  CWE:  " ++ cweId ++ url ++ lit "\n"]
  else []

/-- The `cvss` block of `print_cve`. -/
def cvssPart (cfg : ParseCfg) (j : CveRecord) : List Str :=
  if check_field cfg (lit "cvss") j then
    let d := j.cvss.getD ⟨[], []⟩
    let vec := if cfg.printUrls then
        lit "http://nvd.nist.gov/cvss.cfm?version=2&vector=(" ++ d.cvss_scoring_vector ++ lit ")"
      else d.cvss_scoring_vector
    [lit "  CVSS:  " ++ d.cvss_base_score ++ lit " [" ++ vec ++ lit "]\n"]
  else []

/-- The `cvss3` block of `print_cve`. -/
def cvss3Part (cfg : ParseCfg) (j : CveRecord) : List Str :=
  if check_field cfg (lit "cvss3") j then
    let d := j.cvss3.getD ⟨[], []⟩
    let vec := if cfg.printUrls then
        lit "https://www.first.org/cvss/calculator/3.0#" ++ d.cvss3_scoring_vector
      else d.cvss3_scoring_vector
    [lit "  CVSS3:  " ++ d.cvss3_base_score ++ lit " [" ++ vec ++ lit "]\n"]
  else []

/-- The `bugzilla` block of `print_cve`: guarded only by membership in the
desired fields; an absent key prints an explicit two-line "no data" notice
(this is the sole field whose absence is itself reported). -/
def bugzillaPart (cfg : ParseCfg) (j : CveRecord) : List Str :=
  if List.elem (lit "bugzilla") cfg.desiredFields then
    match j.bugzilla with
    | some b =>
      let bug := if cfg.printUrls then b.url else b.id
      [lit "  BUGZILLA:  " ++ bug ++ lit "\n"]
    | none =>
      [lit "  BUGZILLA:  No Bugzilla data\n",
       lit "   Too new or too old? See: https://bugzilla.redhat.com/show_bug.cgi?id=CVE_legacy\n"]
  else []

/-- The `acknowledgement` block of `print_cve`. -/
def ackPart (cfg : ParseCfg) (j : CveRecord) : List Str :=
  if check_field cfg (lit "acknowledgement") j then
    [lit "  ACKNOWLEDGEMENT:  " ++ stripjoin cfg.w (j.acknowledgement.getD (.str [])) ++ lit "\n"]
  else []

/-- The `details` block of `print_cve`. -/
def detailsPart (cfg : ParseCfg) (j : CveRecord) : List Str :=
  if check_field cfg (lit "details") j then
    [lit "  DETAILS:  " ++ stripjoin cfg.w (j.details.getD (.str [])) ++ lit "\n"]
  else []

/-- The `statement` block of `print_cve`. -/
def statementPart (cfg : ParseCfg) (j : CveRecord) : List Str :=
  if check_field cfg (lit "statement") j then
    [lit "  STATEMENT:  " ++ stripjoin cfg.w (j.statement.getD (.str [])) ++ lit "\n"]
  else []

/-- One line of the `affected_release` block. -/
def releaseLine (cfg : ParseCfg) (r : ReleaseData) : Str :=
  let package := match r.package with
    | some p => lit " [" ++ p ++ lit "]"
    | none => []
  let advisory := if cfg.printUrls then lit "https://access.redhat.com/errata/" ++ r.advisory else r.advisory
  lit "   " ++ r.product_name ++ package ++ lit ": " ++ advisory ++ lit "\n"

/-- The `affected_release` block of `print_cve`: a bare mapping is wrapped
into a one-element list before iteration. -/
def releasePart (cfg : ParseCfg) (j : CveRecord) : List Str :=
  if check_field cfg (lit "affected_release") j then
    lit "  AFFECTED_RELEASE (ERRATA)\n" ::
      (normalizeMulti (j.affected_release.getD (.many []))).map (releaseLine cfg)
  else []

/-- One line of the `package_state` block. -/
def pkgStateLine (s : PkgStateData) : Str :=
  let packageName := match s.package_name with
    | some p => lit " [" ++ p ++ lit "]"
    | none => []
  lit "   " ++ s.fix_state ++ lit ": " ++ s.product_name ++ packageName ++ lit "\n"

/-- The `package_state` block of `print_cve`: a bare mapping is wrapped into
a one-element list before iteration. -/
def pkgStatePart (cfg : ParseCfg) (j : CveRecord) : List Str :=
  if check_field cfg (lit "package_state") j then
    lit "  PACKAGE_STATE\n" ::
      (normalizeMulti (j.package_state.getD (.many []))).map pkgStateLine
  else []

/-- All field blocks of `print_cve` after the identifier header, in the
renderer's fixed order. -/
def renderBody (cfg : ParseCfg) (j : CveRecord) : List Str :=
  sevPart cfg j ++ datePart cfg j ++ cwePart cfg j ++ cvssPart cfg j ++
    cvss3Part cfg j ++ bugzillaPart cfg j ++ ackPart cfg j ++ detailsPart cfg j ++
    statementPart cfg j ++ releasePart cfg j ++ pkgStatePart cfg j

/-- The identifier header line of `print_cve`: display identifier, bracketed
canonical name when it differs from the query identifier, and an optional
parenthetical detail URL.  `jname` is `j['name']`. -/
def headerLine (cfg : ParseCfg) (cve : Str) (jname : Str) : Str :=
  let name := if cve ≠ jname then lit " [" ++ jname ++ lit "]" else []
  let url := if cfg.printUrls then lit " (https://access.redhat.com/security/cve/" ++ cve ++ lit ")" else []
  cve ++ name ++ url ++ lit "\n"

/-- The fielded-text rendering of one successfully fetched record: the list
of chunks passed to `self.Print`, or `none` when the unconditional `j['name']`
lookup raises `KeyError` (the record lacks the `name` key).  With an empty
field selection `print_cve` returns right after the header line; otherwise
the body is followed by the final `self.Print("\n")`. -/
def renderCve (cfg : ParseCfg) (cve : Str) (j : CveRecord) : Option (List Str) :=
  match j.name with
  | none => none
  | some jname =>
    some (headerLine cfg cve jname ::
      (if cfg.desiredFields.isEmpty then []
       else renderBody cfg j ++ [lit "\n"]))

/-- JSON quoting for the raw-output model (escape sequences not modelled:
the fields of interest contain none). -/
def jstr (s : Str) : Str := '"' :: s ++ ['"']

/-- Serialize a `TextVal` for the raw-output model. -/
def textValJson : TextVal → Str
  | .str s => jstr s
  | .list l => '[' :: (List.intercalate (lit ", ") (l.map jstr)) ++ [']']

/-- Model of `jprint(j, False)` = `json.dumps(j, sort_keys=True, indent=2)`
on one CVE record: present keys only, sorted alphabetically.  (Indentation
and nested-object layout are abbreviated; no claim depends on this text.) -/
def recordJson (j : CveRecord) : Str :=
  let entry (k : String) (v : Option Str) : List Str :=
    match v with
    | some s => [lit "  " ++ jstr (lit k) ++ lit ": " ++ s]
    | none => []
  let fields : List Str :=
    entry "acknowledgement" (j.acknowledgement.map textValJson) ++
    entry "affected_release" (j.affected_release.map (fun _ => lit "[...]")) ++
    entry "bugzilla" (j.bugzilla.map (fun _ => lit "\x7b...\x7d")) ++
    entry "cvss" (j.cvss.map (fun _ => lit "\x7b...\x7d")) ++
    entry "cvss3" (j.cvss3.map (fun _ => lit "\x7b...\x7d")) ++
    entry "cwe" (j.cwe.map jstr) ++
    entry "details" (j.details.map textValJson) ++
    entry "name" (j.name.map jstr) ++
    entry "package_state" (j.package_state.map (fun _ => lit "[...]")) ++
    entry "public_date" (j.public_date.map jstr) ++
    entry "statement" (j.statement.map textValJson) ++
    entry "threat_severity" (j.threat_severity.map jstr)
  '\x7b' :: '\n' :: (List.intercalate (lit ",\n") fields) ++ lit "\n\x7d"

/-- Outcome of the underlying `requests.get` for one fetch, as seen by
`RedHatSecDataApiClient.__get`: an HTTP response with a status code and (when
the status is OK) a parsed body, a connection failure, or another request
failure such as a timeout. -/
inductive HttpOutcome where
  | response (status : Nat) (body : CveRecord)
  | connFail (msg : Str)
  | otherFail (msg : Str)
deriving DecidableEq

/-- `requests`' `Response.raise_for_status` raises `HTTPError` exactly for
status codes in 400-599. -/
def raisesForStatus (status : Nat) : Bool := 400 ≤ status && status < 600

/-- True for the outcomes whose exceptions are NOT `HTTPError`: a connection
failure or another request exception (e.g. a timeout). -/
def isTransportFail : HttpOutcome → Bool
  | .response _ _ => false
  | .connFail _ => true
  | .otherFail _ => true

/-- Model of the message of an `HTTPError` (its exact text comes from the
`requests` library and matters to no claim). -/
def httpErrMsg (status : Nat) : Str := (toString status).toList ++ lit " Error"

/-- A stderr line `"{prog}: {e}"` as printed by the exception handlers. -/
def errLine (m : Str) : Str := lit "rhsecapi: " ++ m ++ lit "\n"

/-- The progress line `__get` prints to stderr when `progressToStderr`. -/
def progressLine (cve : Str) : Str :=
  lit "Getting 'https://access.redhat.com/labs/securitydataapi/cve/" ++ cve ++ lit ".json' ...\n"

/-- Mutable state of one run: the chunks passed to `self.Print` (stdout or
the pastebin buffer), the lines printed to stderr (the side channel), and
the found-counter `self.cveCount`. -/
structure RunState where
  primary : List Str := []
  side : List Str := []
  cveCount : Nat := 0
deriving DecidableEq

/-- Result of processing one identifier: continue with the next identifier,
terminate via `exit(1)`, or terminate via an uncaught Python exception
(`KeyError` from the unconditional `j['name']` lookup). -/
inductive StepRes where
  | next (st : RunState)
  | exit1 (st : RunState)
  | pyError (st : RunState)
deriving DecidableEq

/-- `RHSecApiParse.print_cve`: fetch one identifier and dispatch.  A
`ConnectionError` or a non-HTTP `RequestException` prints the error to stderr
and exits the program; an `HTTPError` (any 4xx or 5xx) prints the error to
stderr and, unless in count-only mode, renders the two-line "not found"
fallback block, then continues; a successful fetch counts (count-only mode),
prints raw JSON (json mode), or renders the fielded-text block. -/
def print_cve (cfg : ParseCfg) (cve : Str) (o : HttpOutcome) (st : RunState) : StepRes :=
  let st := if cfg.verbose then { st with side := st.side ++ [progressLine cve] } else st
  match o with
  | .connFail m => .exit1 { st with side := st.side ++ [errLine m] }
  | .otherFail m => .exit1 { st with side := st.side ++ [errLine m] }
  | .response status j =>
    if raisesForStatus status then
      let st := { st with side := st.side ++ [errLine (httpErrMsg status)] }
      if cfg.onlyCount then .next st
      else
        let fallback :=
          [cve ++ lit "\n Not present in Red Hat CVE database\n"] ++
            (if (lit "CVE-").isPrefixOf cve then
              [lit " Try https://cve.mitre.org/cgi-bin/cvename.cgi?name=" ++ cve ++ lit "\n\n"]
             else [])
        .next { st with primary := st.primary ++ fallback }
    else
      if cfg.onlyCount then .next { st with cveCount := st.cveCount + 1 }
      else if cfg.rawOutput then .next { st with primary := st.primary ++ [recordJson j] }
      else
        match renderCve cfg cve j with
        | some out => .next { st with primary := st.primary ++ out }
        | none => .pyError st

/-- How the per-identifier loop in `main` ended. -/
inductive RunEnd where
  | done
  | exited
  | crashed
deriving DecidableEq

/-- The per-identifier loop of `main`: process identifiers strictly in
order; `exit(1)` or an uncaught exception stops the loop at once. -/
def runGo (cfg : ParseCfg) (st : RunState) : List (Str × HttpOutcome) → RunState × RunEnd
  | [] => (st, .done)
  | (cve, o) :: rest =>
    match print_cve cfg cve o st with
    | .next st2 => runGo cfg st2 rest
    | .exit1 st2 => (st2, .exited)
    | .pyError st2 => (st2, .crashed)

/-- The count-mode summary line `"Valid CVE results found: {N} of {M}"`. -/
def validLine (n m : Nat) : Str :=
  lit "Valid CVE results found: " ++ (toString n).toList ++ lit " of " ++ (toString m).toList ++ lit "\n"

/-- The count-mode summary line `"Invalid CVE queries: {N} of {M}"`. -/
def invalidLine (n m : Nat) : Str :=
  lit "Invalid CVE queries: " ++ (toString n).toList ++ lit " of " ++ (toString m).toList ++ lit "\n"

/-- The CVE-list portion of `main`: run the loop over the identifiers and,
in count mode with a nonempty identifier list and a completed loop, print the
two summary lines to stderr. -/
def runCvesMain (cfg : ParseCfg) (items : List (Str × HttpOutcome)) : RunState × RunEnd :=
  let r := runGo cfg {} items
  match r.2 with
  | .done =>
    if cfg.onlyCount && !items.isEmpty then
      ({ r.1 with side := r.1.side ++
          [validLine r.1.cveCount items.length,
           invalidLine (items.length - r.1.cveCount) items.length] }, .done)
    else r
  | _ => r

/-- The search filter criteria resolved from the CLI flags; an empty string
models an absent/empty (falsy) option. -/
structure SearchOpts where
  before : Str := []
  after : Str := []
  bug : Str := []
  advisory : Str := []
  severity : Str := []
  package : Str := []
  cwe : Str := []
  cvss_score : Str := []
  cvss3_score : Str := []
  rawquery : Str := []
deriving DecidableEq

/-- The query-fragment construction at the end of `parse_args`: for each
truthy criterion, in this fixed order, append `&name=value`; for the raw
query append `&` followed by the raw fragment unchanged. -/
def buildSearchQuery (o : SearchOpts) : Str :=
  let q : Str := []
  let q := if o.before ≠ [] then q ++ lit "&before=" ++ o.before else q
  let q := if o.after ≠ [] then q ++ lit "&after=" ++ o.after else q
  let q := if o.bug ≠ [] then q ++ lit "&bug=" ++ o.bug else q
  let q := if o.advisory ≠ [] then q ++ lit "&advisory=" ++ o.advisory else q
  let q := if o.severity ≠ [] then q ++ lit "&severity=" ++ o.severity else q
  let q := if o.package ≠ [] then q ++ lit "&package=" ++ o.package else q
  let q := if o.cwe ≠ [] then q ++ lit "&cwe=" ++ o.cwe else q
  let q := if o.cvss_score ≠ [] then q ++ lit "&cvss_score=" ++ o.cvss_score else q
  let q := if o.cvss3_score ≠ [] then q ++ lit "&cvss3_score=" ++ o.cvss3_score else q
  let q := if o.rawquery ≠ [] then q ++ '&' :: o.rawquery else q
  q

/-- One `&name=value` contribution of a single criterion (empty when the
criterion is empty). -/
def queryPart (name : String) (v : Str) : Str :=
  if v = [] then [] else lit "&" ++ lit name ++ lit "=" ++ v

/-- The specification's reading of the query builder: concatenate the
`&name=value` contributions in the documented fixed order, then `&` plus the
raw escape-hatch fragment appended with its text unmodified. -/
def queryFragmentSpec (o : SearchOpts) : Str :=
  queryPart "before" o.before ++ queryPart "after" o.after ++ queryPart "bug" o.bug ++
    queryPart "advisory" o.advisory ++ queryPart "severity" o.severity ++
    queryPart "package" o.package ++ queryPart "cwe" o.cwe ++
    queryPart "cvss_score" o.cvss_score ++ queryPart "cvss3_score" o.cvss3_score ++
    (if o.rawquery = [] then [] else '&' :: o.rawquery)

theorem hasFieldRec_sev (j : CveRecord) : hasFieldRec j (lit "threat_severity") = j.threat_severity.isSome := rfl

theorem hasFieldRec_date (j : CveRecord) : hasFieldRec j (lit "public_date") = j.public_date.isSome := rfl

theorem hasFieldRec_cwe (j : CveRecord) : hasFieldRec j (lit "cwe") = j.cwe.isSome := rfl

theorem hasFieldRec_cvss (j : CveRecord) : hasFieldRec j (lit "cvss") = j.cvss.isSome := rfl

theorem hasFieldRec_cvss3 (j : CveRecord) : hasFieldRec j (lit "cvss3") = j.cvss3.isSome := rfl

theorem hasFieldRec_bugzilla (j : CveRecord) : hasFieldRec j (lit "bugzilla") = j.bugzilla.isSome := rfl

theorem hasFieldRec_ack (j : CveRecord) : hasFieldRec j (lit "acknowledgement") = j.acknowledgement.isSome := rfl

theorem hasFieldRec_details (j : CveRecord) : hasFieldRec j (lit "details") = j.details.isSome := rfl

theorem hasFieldRec_statement (j : CveRecord) : hasFieldRec j (lit "statement") = j.statement.isSome := rfl

theorem hasFieldRec_ar (j : CveRecord) : hasFieldRec j (lit "affected_release") = j.affected_release.isSome := rfl

theorem hasFieldRec_ps (j : CveRecord) : hasFieldRec j (lit "package_state") = j.package_state.isSome := rfl

/-- C10: fielded-text rendering reads the record's `name` key unconditionally
to build the identifier header line, so a successfully fetched record lacking
the `name` key makes rendering fail with a key-lookup error (modelled as
`none`) instead of skipping the bracketed canonical name, even though every
record field is declared independently optional. -/
theorem C10_name_keyerror (cfg : ParseCfg) (cve : Str) (j : CveRecord)
    (h : j.name = none) : renderCve cfg cve j = none := by
  unfold renderCve
  rw [h]

/-- Witness for C10 at a concrete record that has data in every selectable
field of interest but no `name` key. -/
theorem C10_name_keyerror_witness :
    (({ threat_severity := some (lit "important"), public_date := some (lit "2016-07-18") } : CveRecord).name = none) ∧
      renderCve { desiredFields := [lit "threat_severity"] } (lit "CVE-2016-5387")
        { threat_severity := some (lit "important"), public_date := some (lit "2016-07-18") } = none :=
  ⟨rfl, C10_name_keyerror _ _ _ rfl⟩

/-- C5: rendering a record whose `affected_release` (likewise
`package_state`) is a single bare mapping equals rendering the same record
with that field wrapped in a one-element list: the bare mapping is
normalized to a one-element sequence before iteration and a sequence is used
unchanged. -/
theorem C5_normalize_single (cfg : ParseCfg) (cve : Str) (j : CveRecord)
    (e : ReleaseData) (p : PkgStateData) :
    (j.affected_release = some (.single e) →
      renderCve cfg cve j = renderCve cfg cve { j with affected_release := some (.many [e]) }) ∧
    (j.package_state = some (.single p) →
      renderCve cfg cve j = renderCve cfg cve { j with package_state := some (.many [p]) }) := by
  constructor
  · intro h
    unfold renderCve renderBody
    unfold sevPart datePart cwePart cvssPart cvss3Part bugzillaPart ackPart
      detailsPart statementPart releasePart pkgStatePart
    unfold check_field
    rw [hasFieldRec_ar, hasFieldRec_ar, h]
    rfl
  · intro h
    unfold renderCve renderBody
    unfold sevPart datePart cwePart cvssPart cvss3Part bugzillaPart ackPart
      detailsPart statementPart releasePart pkgStatePart
    unfold check_field
    rw [hasFieldRec_ps, hasFieldRec_ps, h]
    rfl

/-- Witness for C5 at a concrete record carrying a bare `affected_release`
mapping and a bare `package_state` mapping. -/
theorem C5_normalize_single_witness :
    (({ name := some (lit "CVE-2016-5387"),
        affected_release := some (.single ⟨lit "RHEL 7", some (lit "httpd"), lit "RHSA-2016:1421"⟩),
        package_state := some (.single ⟨lit "RHEL 5", some (lit "httpd"), lit "Not affected"⟩) } : CveRecord).affected_release
        = some (.single ⟨lit "RHEL 7", some (lit "httpd"), lit "RHSA-2016:1421"⟩)) ∧
      renderCve { desiredFields := [lit "affected_release", lit "package_state"] } (lit "CVE-2016-5387")
          { name := some (lit "CVE-2016-5387"),
            affected_release := some (.single ⟨lit "RHEL 7", some (lit "httpd"), lit "RHSA-2016:1421"⟩),
            package_state := some (.single ⟨lit "RHEL 5", some (lit "httpd"), lit "Not affected"⟩) } =
        renderCve { desiredFields := [lit "affected_release", lit "package_state"] } (lit "CVE-2016-5387")
          { name := some (lit "CVE-2016-5387"),
            affected_release := some (.many [⟨lit "RHEL 7", some (lit "httpd"), lit "RHSA-2016:1421"⟩]),
            package_state := some (.single ⟨lit "RHEL 5", some (lit "httpd"), lit "Not affected"⟩) } :=
  ⟨rfl, (C5_normalize_single _ _ _ _ ⟨lit "RHEL 5", some (lit "httpd"), lit "Not affected"⟩).1 rfl⟩

/-- A rendered block is terminated by a trailing blank line when its flat
text ends in two newline characters (a final empty line after the last
content line). -/
def blockEndsWithBlankLine (out : List Str) : Bool :=
  (lit "\n\n").isSuffixOf out.flatten

/-- A chunk that ends with a newline character. -/
def endsNl (s : Str) : Prop := ∃ t, s = t ++ ['\n']

theorem endsNl_append (a : Str) {b : Str} (h : endsNl b) : endsNl (a ++ b) := by
  obtain ⟨t, ht⟩ := h
  exact ⟨a ++ t, by rw [ht, List.append_assoc]⟩

theorem headerLine_endsNl (cfg : ParseCfg) (cve jname : Str) : endsNl (headerLine cfg cve jname) :=
  ⟨_, rfl⟩

theorem renderBody_endsNl (cfg : ParseCfg) (j : CveRecord) :
    ∀ s ∈ renderBody cfg j, endsNl s := by
  intro s hs
  unfold renderBody at hs
  simp only [List.mem_append] at hs
  rcases hs with ((((((((((h | h) | h) | h) | h) | h) | h) | h) | h) | h) | h)
  · unfold sevPart at h
    split at h
    · rw [List.mem_singleton] at h
      exact h ▸ ⟨_, rfl⟩
    · exact absurd h (List.not_mem_nil s)
  · unfold datePart at h
    split at h
    · rw [List.mem_singleton] at h
      exact h ▸ ⟨_, rfl⟩
    · exact absurd h (List.not_mem_nil s)
  · unfold cwePart at h
    split at h
    · rw [List.mem_singleton] at h
      exact h ▸ ⟨_, rfl⟩
    · exact absurd h (List.not_mem_nil s)
  · unfold cvssPart at h
    split at h
    · rw [List.mem_singleton] at h
      exact h ▸ endsNl_append _ ⟨[']'], rfl⟩
    · exact absurd h (List.not_mem_nil s)
  · unfold cvss3Part at h
    split at h
    · rw [List.mem_singleton] at h
      exact h ▸ endsNl_append _ ⟨[']'], rfl⟩
    · exact absurd h (List.not_mem_nil s)
  · unfold bugzillaPart at h
    split at h
    · split at h
      · rw [List.mem_singleton] at h
        exact h ▸ ⟨_, rfl⟩
      · rw [List.mem_cons, List.mem_singleton] at h
        rcases h with h | h
        · exact h ▸ ⟨lit "  BUGZILLA:  No Bugzilla data", rfl⟩
        · exact h ▸ ⟨lit "   Too new or too old? See: https://bugzilla.redhat.com/show_bug.cgi?id=CVE_legacy", rfl⟩
    · exact absurd h (List.not_mem_nil s)
  · unfold ackPart at h
    split at h
    · rw [List.mem_singleton] at h
      exact h ▸ ⟨_, rfl⟩
    · exact absurd h (List.not_mem_nil s)
  · unfold detailsPart at h
    split at h
    · rw [List.mem_singleton] at h
      exact h ▸ ⟨_, rfl⟩
    · exact absurd h (List.not_mem_nil s)
  · unfold statementPart at h
    split at h
    · rw [List.mem_singleton] at h
      exact h ▸ ⟨_, rfl⟩
    · exact absurd h (List.not_mem_nil s)
  · unfold releasePart at h
    split at h
    · rw [List.mem_cons] at h
      rcases h with h | h
      · exact h ▸ ⟨lit "  AFFECTED_RELEASE (ERRATA)", rfl⟩
      · rw [List.mem_map] at h
        obtain ⟨r, _, hr⟩ := h
        exact hr ▸ ⟨_, rfl⟩
    · exact absurd h (List.not_mem_nil s)
  · unfold pkgStatePart at h
    split at h
    · rw [List.mem_cons] at h
      rcases h with h | h
      · exact h ▸ ⟨lit "  PACKAGE_STATE", rfl⟩
      · rw [List.mem_map] at h
        obtain ⟨r, _, hr⟩ := h
        exact hr ▸ ⟨_, rfl⟩
    · exact absurd h (List.not_mem_nil s)

theorem flatten_endsNl : ∀ (l : List Str), l ≠ [] → (∀ s ∈ l, endsNl s) → endsNl l.flatten := by
  intro l
  induction l with
  | nil => intro h; exact absurd rfl h
  | cons x xs ih =>
    intro _ hall
    cases xs with
    | nil =>
      simpa using hall x (List.mem_cons_self x [])
    | cons y ys =>
      have h2 := ih (by simp) (fun s hs => hall s (List.mem_cons_of_mem x hs))
      rw [List.flatten_cons]
      exact endsNl_append _ h2

/-- C9 counterexample: with the EMPTY field selection, `print_cve` returns
immediately after the identifier header line, so the rendered block is NOT
terminated by a trailing blank line (the claim asserts a trailing blank line
for every selection, including the empty one). -/
theorem C9_counterexample :
    renderCve { desiredFields := [] } (lit "CVE-2016-5387")
        { name := some (lit "CVE-2016-5387") } = some [lit "CVE-2016-5387\n"] ∧
      blockEndsWithBlankLine [lit "CVE-2016-5387\n"] = false := by
  constructor
  · rfl
  · decide

/-- C9 amended: for every successfully fetched record rendered in
fielded-text mode with a NONEMPTY field selection, the emitted block is
terminated by a trailing blank line; with the empty selection the block is
the identifier header line alone, with no trailing blank line. -/
theorem C9_trailing_blank (cfg : ParseCfg) (cve : Str) (j : CveRecord) (out : List Str)
    (h : renderCve cfg cve j = some out) :
    (cfg.desiredFields ≠ [] → out.getLast? = some (lit "\n") ∧ blockEndsWithBlankLine out = true) ∧
      (cfg.desiredFields = [] → ∃ nm, j.name = some nm ∧ out = [headerLine cfg cve nm]) := by
  unfold renderCve at h
  cases hn : j.name with
  | none => rw [hn] at h; exact absurd h (by simp)
  | some nm =>
    rw [hn] at h
    rw [Option.some_inj] at h
    constructor
    · intro hne
      have hemp : cfg.desiredFields.isEmpty = false := by
        cases hd : cfg.desiredFields with
        | nil => exact absurd hd hne
        | cons a l => rfl
      rw [hemp] at h
      simp only [Bool.false_eq_true, if_false] at h
      constructor
      · rw [← h, ← List.cons_append]
        exact List.getLast?_concat _
      · have hflat : endsNl ((headerLine cfg cve nm :: renderBody cfg j).flatten) := by
          apply flatten_endsNl _ (by simp)
          intro s hs
          rw [List.mem_cons] at hs
          rcases hs with hs | hs
          · exact hs ▸ headerLine_endsNl cfg cve nm
          · exact renderBody_endsNl cfg j s hs
        obtain ⟨t, ht⟩ := hflat
        unfold blockEndsWithBlankLine
        rw [← h, ← List.cons_append, List.flatten_append, ht]
        have : (lit "\n\n").isSuffixOf ((t ++ ['\n']) ++ [lit "\n"].flatten) ↔
            lit "\n\n" <:+ ((t ++ ['\n']) ++ [lit "\n"].flatten) := List.isSuffixOf_iff_suffix
        rw [this]
        have h2 : ((t ++ ['\n']) ++ [lit "\n"].flatten) = t ++ lit "\n\n" := by
          simp [lit, List.append_assoc]
        rw [h2]
        exact List.suffix_append t (lit "\n\n")
    · intro he
      refine ⟨nm, rfl, ?_⟩
      rw [← h, he]
      rfl

/-- Witness for C9 amended at a concrete record and nonempty selection. -/
theorem C9_trailing_blank_witness :
    renderCve { desiredFields := [lit "threat_severity"] } (lit "CVE-1")
        { name := some (lit "CVE-1"), threat_severity := some (lit "moderate") } =
      some [lit "CVE-1\n", lit "  IMPACT:  moderate\n", lit "\n"] ∧
      blockEndsWithBlankLine [lit "CVE-1\n", lit "  IMPACT:  moderate\n", lit "\n"] = true := by
  constructor
  · rfl
  · exact ((C9_trailing_blank { desiredFields := [lit "threat_severity"] } (lit "CVE-1")
      { name := some (lit "CVE-1"), threat_severity := some (lit "moderate") }
      [lit "CVE-1\n", lit "  IMPACT:  moderate\n", lit "\n"] (by rfl)).1 (by decide)).2

/-- Modelled from the spec's words for comparison (claim C3): remove exactly
the literal prefix string `CWE-` from the front of the CWE id, keeping a
remainder that itself begins with `C`, `W`, `E` or `-`. -/
def stripLiteralCwe (id : Str) : Str :=
  if (lit "CWE-").isPrefixOf id then id.drop 4 else id

/-- C3 counterexample: for the CWE id `CWE-CWE-77` the code's
`lstrip("CWE-")` removes every leading character in the set, so the rendered
URL line uses `77`, not the `CWE-77` that literal-prefix removal (the claim)
would produce; the claim-predicted line does not appear in the output. -/
theorem C3_counterexample :
    stripLiteralCwe (lit "CWE-CWE-77") = lit "CWE-77" ∧
      pyLstrip (lit "CWE-") (lit "CWE-CWE-77") = lit "77" ∧
      List.elem (lit "  CWE:  CWE-CWE-77 (http://cwe.mitre.org/data/definitions/77.html)\n")
        ((renderCve { desiredFields := [lit "cwe"], printUrls := true } (lit "CVE-1")
          { name := some (lit "CVE-1"), cwe := some (lit "CWE-CWE-77") }).getD []) = true ∧
      List.elem (lit "  CWE:  CWE-CWE-77 (http://cwe.mitre.org/data/definitions/CWE-77.html)\n")
        ((renderCve { desiredFields := [lit "cwe"], printUrls := true } (lit "CVE-1")
          { name := some (lit "CVE-1"), cwe := some (lit "CWE-CWE-77") }).getD []) = false := by
  refine ⟨by decide, by decide, by decide, by decide⟩

/-- C3 amended: in URL mode, for every record with `cwe` selected and
present, the CWE definitions URL is built from the id with ALL leading
characters drawn from the set of `C`, `W`, `E` and `-` removed (Python's
`lstrip("CWE-")` character-set semantics), substituted into the
definitions-site template. -/
theorem C3_cwe_url_charset (cfg : ParseCfg) (cve : Str) (j : CveRecord) (idStr nm : Str)
    (hurl : cfg.printUrls = true) (hsel : List.elem (lit "cwe") cfg.desiredFields = true)
    (hcwe : j.cwe = some idStr) (hn : j.name = some nm) :
    ∃ out, renderCve cfg cve j = some out ∧
      (lit "  CWE:  " ++ idStr ++
        (lit " (http://cwe.mitre.org/data/definitions/" ++ pyLstrip (lit "CWE-") idStr ++ lit ".html)") ++
        lit "\n") ∈ out := by
  have hcw : cwePart cfg j =
      [lit "  CWE:  " ++ idStr ++
        (lit " (http://cwe.mitre.org/data/definitions/" ++ pyLstrip (lit "CWE-") idStr ++ lit ".html)") ++
        lit "\n"] := by
    unfold cwePart check_field
    rw [hasFieldRec_cwe, hcwe, hsel, hurl]
    simp
  have hne : cfg.desiredFields.isEmpty = false := by
    cases hd : cfg.desiredFields with
    | nil => rw [hd] at hsel; exact absurd hsel (by simp [List.elem])
    | cons a l => rfl
  unfold renderCve
  rw [hn]
  refine ⟨_, rfl, ?_⟩
  rw [hne]
  simp only [Bool.false_eq_true, if_false]
  apply List.mem_cons_of_mem
  apply List.mem_append_left
  simp [renderBody, hcw]

/-- Witness for C3 amended at the concrete id `CWE-CWE-77`. -/
theorem C3_cwe_url_charset_witness :
    ∃ out, renderCve { desiredFields := [lit "cwe"], printUrls := true } (lit "CVE-1")
        { name := some (lit "CVE-1"), cwe := some (lit "CWE-CWE-77") } = some out ∧
      lit "  CWE:  CWE-CWE-77 (http://cwe.mitre.org/data/definitions/77.html)\n" ∈ out := by
  obtain ⟨out, ho, hm⟩ := C3_cwe_url_charset { desiredFields := [lit "cwe"], printUrls := true }
    (lit "CVE-1") { name := some (lit "CVE-1"), cwe := some (lit "CWE-CWE-77") }
    (lit "CWE-CWE-77") (lit "CVE-1") rfl (by decide) rfl rfl
  refine ⟨out, ho, ?_⟩
  have he : lit "  CWE:  CWE-CWE-77 (http://cwe.mitre.org/data/definitions/77.html)\n" =
      lit "  CWE:  " ++ lit "CWE-CWE-77" ++
        (lit " (http://cwe.mitre.org/data/definitions/" ++ pyLstrip (lit "CWE-") (lit "CWE-CWE-77") ++ lit ".html)") ++
        lit "\n" := by decide
  rw [he]
  exact hm

theorem elem_filter_ne (d : List Str) (x f : Str) (hx : x ≠ f) :
    List.elem x (d.filter (fun g => !(g == f))) = List.elem x d := by
  rw [List.elem_eq_mem, List.elem_eq_mem, decide_eq_decide]
  rw [List.mem_filter]
  have hb : (!(x == f)) = true := by simp [hx]
  simp [hb]

theorem check_cond_filter (d : List Str) (j : CveRecord) (f : Str)
    (hf : hasFieldRec j f = false) (x : Str) :
    (List.elem x (d.filter (fun g => !(g == f))) && hasFieldRec j x) =
      (List.elem x d && hasFieldRec j x) := by
  cases hx : hasFieldRec j x with
  | false => simp
  | true =>
    have hxf : x ≠ f := fun he => by rw [he, hf] at hx; exact Bool.noConfusion hx
    rw [elem_filter_ne d x f hxf]

/-- Deselecting a field that is absent from the record changes no body line:
for every field other than `bugzilla`, selected-but-absent emits nothing. -/
theorem renderBody_filter_absent (cfg : ParseCfg) (j : CveRecord) (f : Str)
    (hf : hasFieldRec j f = false) (hbz : f ≠ lit "bugzilla") :
    renderBody { cfg with desiredFields := cfg.desiredFields.filter (fun g => !(g == f)) } j =
      renderBody cfg j := by
  obtain ⟨d, pu, ro, oc, vb, w⟩ := cfg
  unfold renderBody sevPart datePart cwePart cvssPart cvss3Part bugzillaPart ackPart
    detailsPart statementPart releasePart pkgStatePart check_field
  dsimp only
  rw [check_cond_filter d j f hf, check_cond_filter d j f hf, check_cond_filter d j f hf,
    check_cond_filter d j f hf, check_cond_filter d j f hf, check_cond_filter d j f hf,
    check_cond_filter d j f hf, check_cond_filter d j f hf, check_cond_filter d j f hf,
    check_cond_filter d j f hf,
    elem_filter_ne d (lit "bugzilla") f (fun he => hbz he.symm)]
  rfl

/-- The selectable fields other than `bugzilla`. -/
def otherSelectable : List Str :=
  [lit "threat_severity", lit "public_date", lit "cwe", lit "cvss", lit "cvss3",
   lit "acknowledgement", lit "details", lit "statement", lit "affected_release",
   lit "package_state"]

/-- C4: in fielded-text mode, `bugzilla` selected but absent from the record
emits the explicit two-line "No Bugzilla data" notice (with its guidance
URL), while every other selectable field that is selected but absent from
the record emits no line at all (deselecting it leaves the body unchanged). -/
theorem C4_bugzilla_absent_special (cfg : ParseCfg) (cve : Str) (j : CveRecord) :
    (∀ nm out, j.name = some nm → j.bugzilla = none →
      List.elem (lit "bugzilla") cfg.desiredFields = true →
      renderCve cfg cve j = some out →
      lit "  BUGZILLA:  No Bugzilla data\n" ∈ out ∧
        lit "   Too new or too old? See: https://bugzilla.redhat.com/show_bug.cgi?id=CVE_legacy\n" ∈ out) ∧
      (∀ f, f ∈ otherSelectable → hasFieldRec j f = false →
        renderBody { cfg with desiredFields := cfg.desiredFields.filter (fun g => !(g == f)) } j =
          renderBody cfg j) := by
  constructor
  · intro nm out hn hbz hsel hout
    have hbp : bugzillaPart cfg j =
        [lit "  BUGZILLA:  No Bugzilla data\n",
         lit "   Too new or too old? See: https://bugzilla.redhat.com/show_bug.cgi?id=CVE_legacy\n"] := by
      unfold bugzillaPart
      rw [hsel, hbz]
      simp
    have hne : cfg.desiredFields.isEmpty = false := by
      cases hd : cfg.desiredFields with
      | nil => rw [hd] at hsel; exact absurd hsel (by simp [List.elem])
      | cons a l => rfl
    unfold renderCve at hout
    rw [hn, hne] at hout
    simp only [Bool.false_eq_true, if_false, Option.some_inj] at hout
    rw [← hout]
    constructor
    · apply List.mem_cons_of_mem
      apply List.mem_append_left
      simp [renderBody, hbp]
    · apply List.mem_cons_of_mem
      apply List.mem_append_left
      simp [renderBody, hbp]
  · intro f hmem hf
    have hbz : f ≠ lit "bugzilla" := by
      simp only [otherSelectable, List.mem_cons, List.not_mem_nil, or_false] at hmem
      rcases hmem with h | h | h | h | h | h | h | h | h | h
      all_goals (subst h; decide)
    exact renderBody_filter_absent cfg j f hf hbz

/-- Witness for C4 at a concrete record lacking both `bugzilla` and `cwe`. -/
theorem C4_bugzilla_absent_special_witness :
    (lit "  BUGZILLA:  No Bugzilla data\n" ∈
        ((renderCve { desiredFields := [lit "bugzilla", lit "cwe"] } (lit "CVE-1")
          { name := some (lit "CVE-1") }).getD []) ∧
      lit "   Too new or too old? See: https://bugzilla.redhat.com/show_bug.cgi?id=CVE_legacy\n" ∈
        ((renderCve { desiredFields := [lit "bugzilla", lit "cwe"] } (lit "CVE-1")
          { name := some (lit "CVE-1") }).getD [])) ∧
      renderBody { desiredFields := [lit "bugzilla"] } { name := some (lit "CVE-1") } =
        renderBody { desiredFields := [lit "bugzilla", lit "cwe"] } { name := some (lit "CVE-1") } := by
  constructor
  · exact (C4_bugzilla_absent_special { desiredFields := [lit "bugzilla", lit "cwe"] } (lit "CVE-1")
      { name := some (lit "CVE-1") }).1 (lit "CVE-1") _ rfl rfl (by decide) rfl
  · have h := (C4_bugzilla_absent_special { desiredFields := [lit "bugzilla", lit "cwe"] } (lit "CVE-1")
      { name := some (lit "CVE-1") }).2 (lit "cwe") (by simp [otherSelectable]) rfl
    have he : ([lit "bugzilla", lit "cwe"].filter (fun g => !(g == lit "cwe"))) = [lit "bugzilla"] := by
      decide
    rw [he] at h
    exact h

/-- C8: two field selections containing the same SET of field names --
regardless of listed order and of duplicates -- render every record
identically: the renderer's fixed field sequence owns the ordering, and the
selection is consulted only through membership tests. -/
theorem C8_selection_set (cfg : ParseCfg) (d2 : List Str) (cve : Str) (j : CveRecord)
    (h : ∀ f, f ∈ cfg.desiredFields ↔ f ∈ d2) :
    renderCve cfg cve j = renderCve { cfg with desiredFields := d2 } cve j := by
  obtain ⟨d, pu, ro, oc, vb, w⟩ := cfg
  have helem : ∀ f, List.elem f d = List.elem f d2 := fun f => by
    rw [List.elem_eq_mem, List.elem_eq_mem, decide_eq_decide]
    exact h f
  have hemp : d.isEmpty = d2.isEmpty := by
    cases hd : d with
    | nil =>
      cases hd2 : d2 with
      | nil => rfl
      | cons b m =>
        have hb := (h b).2 (by rw [hd2]; exact List.mem_cons_self b m)
        rw [hd] at hb
        exact absurd hb (List.not_mem_nil b)
    | cons a l =>
      cases hd2 : d2 with
      | nil =>
        have ha := (h a).1 (by rw [hd]; exact List.mem_cons_self a l)
        rw [hd2] at ha
        exact absurd ha (List.not_mem_nil a)
      | cons b m => rfl
  unfold renderCve renderBody sevPart datePart cwePart cvssPart cvss3Part bugzillaPart
    ackPart detailsPart statementPart releasePart pkgStatePart check_field
  dsimp only
  rw [hemp, helem (lit "threat_severity"), helem (lit "public_date"), helem (lit "cwe"),
    helem (lit "cvss"), helem (lit "cvss3"), helem (lit "bugzilla"),
    helem (lit "acknowledgement"), helem (lit "details"), helem (lit "statement"),
    helem (lit "affected_release"), helem (lit "package_state")]
  rfl

/-- Witness for C8: a duplicated, reordered selection renders identically to
its deduplicated reordering. -/
theorem C8_selection_set_witness :
    renderCve { desiredFields := [lit "cwe", lit "bugzilla", lit "cwe"] } (lit "CVE-1")
        { name := some (lit "CVE-1"), cwe := some (lit "CWE-79") } =
      renderCve { desiredFields := [lit "bugzilla", lit "cwe"] } (lit "CVE-1")
        { name := some (lit "CVE-1"), cwe := some (lit "CWE-79") } := by
  exact C8_selection_set { desiredFields := [lit "cwe", lit "bugzilla", lit "cwe"] }
    [lit "bugzilla", lit "cwe"] (lit "CVE-1") { name := some (lit "CVE-1"), cwe := some (lit "CWE-79") }
    (by intro f
        simp only [List.mem_cons, List.not_mem_nil, or_false]
        tauto)

theorem append_ite (q b : Str) (c : Prop) [Decidable c] :
    (if c then q ++ b else q) = q ++ (if c then b else []) := by
  split <;> simp

theorem append2_ite (q a b : Str) (c : Prop) [Decidable c] :
    (if c then q ++ a ++ b else q) = q ++ (if c then a ++ b else []) := by
  split <;> simp

theorem append_ite_flip (q b : Str) (c : Prop) [Decidable c] :
    (if c then q else q ++ b) = q ++ (if c then [] else b) := by
  split <;> simp

theorem append2_ite_flip (q a b : Str) (c : Prop) [Decidable c] :
    (if c then q else q ++ a ++ b) = q ++ (if c then [] else a ++ b) := by
  split <;> simp

/-- C7: the built query fragment is exactly the concatenation of the
`&name=value` contributions of the non-empty criteria, in the fixed order
before, after, bug, advisory, severity, package, cwe, cvss_score,
cvss3_score, followed by `&` plus the raw escape-hatch fragment with its
text unmodified; with every criterion empty the fragment is empty, and with
exactly one non-empty criterion `f=v` it equals `&f=v`. -/
theorem C7_query_builder :
    (∀ o : SearchOpts, buildSearchQuery o = queryFragmentSpec o) ∧
      buildSearchQuery {} = [] ∧
      (∀ v : Str, v ≠ [] →
        buildSearchQuery { before := v } = lit "&before=" ++ v ∧
        buildSearchQuery { after := v } = lit "&after=" ++ v ∧
        buildSearchQuery { bug := v } = lit "&bug=" ++ v ∧
        buildSearchQuery { advisory := v } = lit "&advisory=" ++ v ∧
        buildSearchQuery { severity := v } = lit "&severity=" ++ v ∧
        buildSearchQuery { package := v } = lit "&package=" ++ v ∧
        buildSearchQuery { cwe := v } = lit "&cwe=" ++ v ∧
        buildSearchQuery { cvss_score := v } = lit "&cvss_score=" ++ v ∧
        buildSearchQuery { cvss3_score := v } = lit "&cvss3_score=" ++ v ∧
        buildSearchQuery { rawquery := v } = '&' :: v) := by
  refine ⟨?_, by rfl, ?_⟩
  · intro o
    unfold buildSearchQuery queryFragmentSpec queryPart
    dsimp only
    rw [append_ite]
    rw [append2_ite, append2_ite, append2_ite, append2_ite, append2_ite,
      append2_ite, append2_ite, append2_ite, append2_ite]
    simp [List.append_assoc, ne_eq, ite_not, lit]
  · intro v hv
    refine ⟨?_, ?_, ?_, ?_, ?_, ?_, ?_, ?_, ?_, ?_⟩ <;>
      (unfold buildSearchQuery; simp [hv, lit])

/-- Witness for C7 at a concrete criterion value. -/
theorem C7_query_builder_witness :
    buildSearchQuery { severity := lit "important" } = lit "&severity=important" := by
  have h := (C7_query_builder.2.2 (lit "important") (by decide)).2.2.2.2.1
  rw [h]
  decide

/-- True when the fetch reached an HTTP response (a success or a 4xx/5xx
raising `HTTPError`), i.e. the per-identifier loop continues afterwards. -/
def isResp : HttpOutcome → Bool
  | .response _ _ => true
  | _ => false

/-- The stderr diagnostics the per-identifier loop emits before the count
summary: an optional progress line per identifier (verbose mode) and one
error line per identifier whose response status raises `HTTPError`. -/
def countNoise (cfg : ParseCfg) (items : List (Str × HttpOutcome)) : List Str :=
  items.flatMap (fun x =>
    (if cfg.verbose then [progressLine x.1] else []) ++
      match x.2 with
      | .response s _ => if raisesForStatus s then [errLine (httpErrMsg s)] else []
      | .connFail m => [errLine m]
      | .otherFail m => [errLine m])

/-- The number of identifiers whose fetch succeeds (HTTP status outside
400-599). -/
def countOk (items : List (Str × HttpOutcome)) : Nat :=
  items.countP (fun x =>
    match x.2 with
    | .response s _ => !raisesForStatus s
    | _ => false)

theorem runGo_count (cfg : ParseCfg) (hc : cfg.onlyCount = true) :
    ∀ (items : List (Str × HttpOutcome)) (st : RunState),
      (∀ x ∈ items, isResp x.2 = true) →
      runGo cfg st items =
        ({ primary := st.primary, side := st.side ++ countNoise cfg items,
           cveCount := st.cveCount + countOk items }, .done) := by
  intro items
  induction items with
  | nil => intro st _; simp [runGo, countNoise, countOk]
  | cons x rest ih =>
    intro st hall
    obtain ⟨cve, o⟩ := x
    have ho : isResp o = true := hall (cve, o) (List.mem_cons_self _ _)
    cases o with
    | connFail m => exact absurd ho (by simp [isResp])
    | otherFail m => exact absurd ho (by simp [isResp])
    | response s j =>
      have hrest : ∀ x ∈ rest, isResp x.2 = true :=
        fun x hx => hall x (List.mem_cons_of_mem _ hx)
      unfold runGo print_cve
      cases hs : raisesForStatus s with
      | true =>
        simp only [hs, hc, if_true]
        rw [ih _ hrest]
        unfold countNoise countOk
        cases hv : cfg.verbose <;>
          simp [hv, hs, List.flatMap_cons, List.countP_cons, List.append_assoc]
      | false =>
        simp only [hs, hc, if_true, Bool.false_eq_true, if_false]
        rw [ih _ hrest]
        unfold countNoise countOk
        cases hv : cfg.verbose <;>
          simp [hv, hs, List.flatMap_cons, List.countP_cons, List.append_assoc, Nat.add_assoc,
            Nat.add_comm 1]

/-- C6: in count-only mode, over a NONEMPTY identifier list whose fetches
all reach an HTTP response (success or not-found), nothing is rendered to
the primary report, the found-counter counts exactly the successful fetches,
and the side channel ends with exactly the two summary lines
`Valid CVE results found: K of M` and `Invalid CVE queries: M-K of M`.
Over the EMPTY identifier list, `main`'s `if opts.cves:` guard skips both
the loop and the summary, so nothing at all is printed (the original claim
fails at M = 0; see `C6_counterexample`). -/
theorem C6_count_only_report (cfg : ParseCfg) (items : List (Str × HttpOutcome))
    (hc : cfg.onlyCount = true) (hall : ∀ x ∈ items, isResp x.2 = true) :
    (items ≠ [] →
      (runCvesMain cfg items).2 = .done ∧
        (runCvesMain cfg items).1.primary = [] ∧
        (runCvesMain cfg items).1.cveCount = countOk items ∧
        (runCvesMain cfg items).1.side =
          countNoise cfg items ++
            [validLine (countOk items) items.length,
             invalidLine (items.length - countOk items) items.length]) ∧
    (items = [] → runCvesMain cfg items = ({}, .done)) := by
  constructor
  · intro hne
    unfold runCvesMain
    rw [runGo_count cfg hc items {} hall]
    have hemp : items.isEmpty = false := by
      cases hd : items with
      | nil => exact absurd hd hne
      | cons a l => rfl
    rw [hc, hemp]
    simp
  · intro he
    subst he
    unfold runCvesMain runGo
    simp

/-- C6 counterexample: with the empty identifier list (reachable in count
mode, e.g. `--extract-search` over a search with no results), the
`if opts.cves:` guard in `main` skips the loop and the summary alike, so
the side channel receives nothing at all — not the `found 0 of 0` and
`invalid 0 of 0` lines the claim requires for every length M. -/
theorem C6_counterexample :
    (runCvesMain { desiredFields := [], onlyCount := true } []).1.side = [] ∧
      (runCvesMain { desiredFields := [], onlyCount := true } []).1.primary = [] ∧
      validLine 0 0 ∉ (runCvesMain { desiredFields := [], onlyCount := true } []).1.side := by
  decide

/-- Witness for C6: three identifiers of which one fails as not-found give
`found 2 of 3` and `invalid 1 of 3`. -/
theorem C6_count_only_report_witness :
    (runCvesMain { desiredFields := [], onlyCount := true }
        [(lit "CVE-1", .response 200 { name := some (lit "CVE-1") }),
         (lit "CVE-2", .response 404 { name := some (lit "CVE-2") }),
         (lit "CVE-3", .response 200 { name := some (lit "CVE-3") })]).1.primary = [] ∧
      (runCvesMain { desiredFields := [], onlyCount := true }
        [(lit "CVE-1", .response 200 { name := some (lit "CVE-1") }),
         (lit "CVE-2", .response 404 { name := some (lit "CVE-2") }),
         (lit "CVE-3", .response 200 { name := some (lit "CVE-3") })]).1.side =
        [errLine (httpErrMsg 404), validLine 2 3, invalidLine 1 3] := by
  have h := (C6_count_only_report { desiredFields := [], onlyCount := true }
    [(lit "CVE-1", .response 200 { name := some (lit "CVE-1") }),
     (lit "CVE-2", .response 404 { name := some (lit "CVE-2") }),
     (lit "CVE-3", .response 200 { name := some (lit "CVE-3") })]
    rfl (by decide)).1 (by decide)
  refine ⟨h.2.1, ?_⟩
  rw [h.2.2.2]
  decide

/-- True exactly when processing one identifier ended in `exit(1)`. -/
def isExit1 : StepRes → Bool
  | .exit1 _ => true
  | _ => false

/-- The run state carried by a step result. -/
def stateOf : StepRes → RunState
  | .next st => st
  | .exit1 st => st
  | .pyError st => st

/-- C1 counterexample: an HTTP 500 server error raises `HTTPError`, which
`print_cve` treats as the recoverable "not found" condition -- the run does
NOT abort, and the two-line fallback block IS rendered (the claim asserts
that only 4xx is recoverable and that a 5xx aborts with no fallback). -/
theorem C1_counterexample :
    print_cve { desiredFields := [] } (lit "CVE-2016-5387")
        (.response 500 { name := some (lit "CVE-2016-5387") }) {} =
      .next { primary := [lit "CVE-2016-5387\n Not present in Red Hat CVE database\n",
                          lit " Try https://cve.mitre.org/cgi-bin/cvename.cgi?name=CVE-2016-5387\n\n"],
              side := [errLine (httpErrMsg 500)], cveCount := 0 } ∧
      isExit1 (print_cve { desiredFields := [] } (lit "CVE-2016-5387")
        (.response 500 { name := some (lit "CVE-2016-5387") }) {}) = false := by
  constructor
  · decide
  · decide

/-- C1 amended: `print_cve` exits the program exactly on the non-HTTP
request failures (connection failure, timeout or other request exception);
on such a failure nothing is added to the primary report (no fallback
block), and the per-identifier loop stops at once, processing no further
identifiers; every HTTP response -- any status, in particular both 4xx and
5xx -- continues the run, with 400-599 taking the recoverable fallback
path. -/
theorem C1_fatal_vs_notfound :
    (∀ (cfg : ParseCfg) (cve : Str) (o : HttpOutcome) (st : RunState),
      isExit1 (print_cve cfg cve o st) = isTransportFail o) ∧
      (∀ (cfg : ParseCfg) (cve : Str) (o : HttpOutcome) (st : RunState),
        isTransportFail o = true →
        (stateOf (print_cve cfg cve o st)).primary = st.primary) ∧
      (∀ (cfg : ParseCfg) (cve : Str) (o : HttpOutcome) (st : RunState)
        (rest : List (Str × HttpOutcome)),
        isTransportFail o = true →
        runGo cfg st ((cve, o) :: rest) = runGo cfg st [(cve, o)]) := by
  refine ⟨?_, ?_, ?_⟩
  · intro cfg cve o st
    cases o with
    | connFail m => simp [print_cve, isExit1, isTransportFail]
    | otherFail m => simp [print_cve, isExit1, isTransportFail]
    | response s j =>
      unfold print_cve
      cases hs : raisesForStatus s with
      | true =>
        cases hc : cfg.onlyCount <;> simp [hs, hc, isExit1, isTransportFail]
      | false =>
        cases hc : cfg.onlyCount with
        | true => simp [hs, hc, isExit1, isTransportFail]
        | false =>
          cases hr : cfg.rawOutput with
          | true => simp [hs, hc, hr, isExit1, isTransportFail]
          | false =>
            cases hj : renderCve cfg cve j <;>
              simp [hs, hc, hr, hj, isExit1, isTransportFail]
  · intro cfg cve o st ht
    cases o with
    | connFail m => cases hv : cfg.verbose <;> simp [print_cve, stateOf, hv]
    | otherFail m => cases hv : cfg.verbose <;> simp [print_cve, stateOf, hv]
    | response s j => exact absurd ht (by simp [isTransportFail])
  · intro cfg cve o st rest ht
    cases o with
    | connFail m => rfl
    | otherFail m => rfl
    | response s j => exact absurd ht (by simp [isTransportFail])

/-- Witness for C1 amended at a concrete connection failure. -/
theorem C1_fatal_vs_notfound_witness :
    isExit1 (print_cve { desiredFields := [] } (lit "CVE-1") (.connFail (lit "refused")) {}) = true ∧
      (stateOf (print_cve { desiredFields := [] } (lit "CVE-1") (.connFail (lit "refused")) {})).primary = [] ∧
      runGo { desiredFields := [] } {}
          [(lit "CVE-1", .connFail (lit "refused")),
           (lit "CVE-2", .response 200 { name := some (lit "CVE-2") })] =
        runGo { desiredFields := [] } {} [(lit "CVE-1", .connFail (lit "refused"))] := by
  refine ⟨?_, ?_, ?_⟩
  · rw [C1_fatal_vs_notfound.1 { desiredFields := [] } (lit "CVE-1") (.connFail (lit "refused")) {}]
    decide
  · exact C1_fatal_vs_notfound.2.1 { desiredFields := [] } (lit "CVE-1") (.connFail (lit "refused")) {} (by decide)
  · exact C1_fatal_vs_notfound.2.2 { desiredFields := [] } (lit "CVE-1") (.connFail (lit "refused")) {}
      [(lit "CVE-2", .response 200 { name := some (lit "CVE-2") })] (by decide)

/-- Total character count of a chunk list. -/
def sumLen (l : List Str) : Nat := (l.map List.length).sum

/-- A nonempty run of non-whitespace characters. -/
def isWordChunk (ch : Str) : Bool := !ch.isEmpty && ch.all (fun c => !pyIsSpace c)

/-- A nonempty run of plain spaces (the only whitespace after munging). -/
def isSpaceChunk (ch : Str) : Bool := !ch.isEmpty && ch.all (fun c => c == ' ')

/-- Well-formed chunk lists for the idempotence argument: chunks alternate
between words and spaces (the flag tells which kind comes next, `true` =
word), every word fits in the content width `cw`, and every space run has
length at most 5 (the width of the separator re-wrapping produces). -/
def goodChunks (cw : Nat) : Bool → List Str → Bool
  | _, [] => true
  | true, ch :: r => isWordChunk ch && decide (ch.length ≤ cw) && goodChunks cw false r
  | false, ch :: r => isSpaceChunk ch && decide (ch.length ≤ 5) && goodChunks cw true r

/-- The five-space separator that collapsing a newline plus the 3-space
indent produces when re-wrapping wrapped output. -/
def sp5 : Str := lit "     "

/-- Chunk list of the re-wrap input: the lines' chunks joined by five-space
separators. -/
def interChunks (LS : List (List Str)) : List Str := List.intercalate [sp5] LS

theorem sumLen_nil : sumLen [] = 0 := rfl

theorem sumLen_cons (ch : Str) (t : List Str) : sumLen (ch :: t) = ch.length + sumLen t := by
  simp [sumLen]

theorem sumLen_append (a b : List Str) : sumLen (a ++ b) = sumLen a + sumLen b := by
  simp [sumLen]

theorem fillLine_takeAll (cw : Int) :
    ∀ (t : List Str) (rest acc : List Str) (len : Nat),
      ((len + sumLen t : Nat) : Int) ≤ cw →
      fillLine cw acc len (t ++ rest) = fillLine cw (acc ++ t) (len + sumLen t) rest := by
  intro t
  induction t with
  | nil => intro rest acc len _; simp [sumLen_nil]
  | cons ch t' ih =>
    intro rest acc len h
    have hs : sumLen (ch :: t') = ch.length + sumLen t' := sumLen_cons ch t'
    have hch : (len : Int) + ch.length ≤ cw := by
      push_cast at h
      rw [hs] at h
      push_cast at h
      omega
    rw [List.cons_append]
    conv_lhs => rw [fillLine]
    rw [if_pos hch]
    have h2 : ((len + ch.length + sumLen t' : Nat) : Int) ≤ cw := by
      push_cast at h ⊢
      rw [hs] at h
      push_cast at h
      omega
    rw [ih rest (acc ++ [ch]) (len + ch.length) h2]
    have ha : (acc ++ [ch]) ++ t' = acc ++ ch :: t' := by simp
    have hn : len + ch.length + sumLen t' = len + sumLen (ch :: t') := by rw [hs]; omega
    rw [ha, hn]

theorem fillLine_stop (cw : Int) (acc : List Str) (len : Nat) (ch : Str) (r : List Str)
    (h : ¬((len : Int) + ch.length ≤ cw)) :
    fillLine cw acc len (ch :: r) = (acc, len, ch :: r) := by
  conv_lhs => rw [fillLine]
  rw [if_neg h]

theorem fillLine_spec (cw : Int) :
    ∀ (cs acc : List Str) (len : Nat),
      ∃ t r, fillLine cw acc len cs = (acc ++ t, len + sumLen t, r) ∧ cs = t ++ r ∧
        ((len : Int) ≤ cw → ((len + sumLen t : Nat) : Int) ≤ cw) ∧
        (∀ ch r', r = ch :: r' → ¬(((len + sumLen t : Nat) : Int) + ch.length ≤ cw)) := by
  intro cs
  induction cs with
  | nil =>
    intro acc len
    refine ⟨[], [], by simp [fillLine, sumLen_nil], rfl, ?_, by simp⟩
    intro h
    simpa [sumLen_nil] using h
  | cons ch rest ih =>
    intro acc len
    by_cases hc : (len : Int) + ch.length ≤ cw
    · obtain ⟨t, r, h1, h2, h3, h4⟩ := ih (acc ++ [ch]) (len + ch.length)
      have hs : sumLen (ch :: t) = ch.length + sumLen t := sumLen_cons ch t
      refine ⟨ch :: t, r, ?_, by rw [h2, List.cons_append], ?_, ?_⟩
      · conv_lhs => rw [fillLine]
        rw [if_pos hc, h1]
        have ha : (acc ++ [ch]) ++ t = acc ++ ch :: t := by simp
        have hn : len + ch.length + sumLen t = len + sumLen (ch :: t) := by rw [hs]; omega
        rw [ha, hn]
      · intro _
        have := h3 hc
        rw [hs]
        push_cast at this ⊢
        omega
      · intro ch2 r2 hr
        have := h4 ch2 r2 hr
        rw [hs]
        push_cast at this ⊢
        omega
    · refine ⟨[], ch :: rest, ?_, rfl, ?_, ?_⟩
      · rw [fillLine_stop cw acc len ch rest hc]
        simp [sumLen_nil]
      · intro h
        simpa [sumLen_nil] using h
      · intro ch2 r2 hr
        rw [List.cons_eq_cons] at hr
        obtain ⟨he1, he2⟩ := hr
        subst he1
        simpa [sumLen_nil] using hc

/-- The expected-kind flag after consuming a chunk list (kinds alternate,
so the flag flips once per chunk). -/
def nextFlag : Bool → List Str → Bool
  | b, [] => b
  | b, _ :: t => nextFlag (!b) t

theorem goodChunks_nil (cw : Nat) (b : Bool) : goodChunks cw b [] = true := by
  cases b <;> rfl

theorem goodChunks_cons_true {cw : Nat} {ch : Str} {r : List Str} :
    goodChunks cw true (ch :: r) = true ↔
      isWordChunk ch = true ∧ ch.length ≤ cw ∧ goodChunks cw false r = true := by
  rw [show goodChunks cw true (ch :: r) =
    (isWordChunk ch && decide (ch.length ≤ cw) && goodChunks cw false r) from rfl]
  simp [Bool.and_eq_true, and_assoc]

theorem goodChunks_cons_false {cw : Nat} {ch : Str} {r : List Str} :
    goodChunks cw false (ch :: r) = true ↔
      isSpaceChunk ch = true ∧ ch.length ≤ 5 ∧ goodChunks cw true r = true := by
  rw [show goodChunks cw false (ch :: r) =
    (isSpaceChunk ch && decide (ch.length ≤ 5) && goodChunks cw true r) from rfl]
  simp [Bool.and_eq_true, and_assoc]

theorem word_not_ws {ch : Str} (h : isWordChunk ch = true) : isWsChunk ch = false := by
  unfold isWordChunk at h
  unfold isWsChunk
  rw [Bool.and_eq_true] at h
  obtain ⟨hne, hall⟩ := h
  cases ch with
  | nil => simp at hne
  | cons c r =>
    rw [List.all_eq_true] at hall
    have hc := hall c (List.mem_cons_self c r)
    rw [Bool.not_eq_true'] at hc
    simp [List.all_cons, hc]

theorem space_is_ws {ch : Str} (h : isSpaceChunk ch = true) : isWsChunk ch = true := by
  unfold isSpaceChunk at h
  unfold isWsChunk
  rw [Bool.and_eq_true] at h
  obtain ⟨_, hall⟩ := h
  rw [List.all_eq_true] at hall ⊢
  intro c hc
  have := hall c hc
  rw [beq_iff_eq] at this
  rw [this]
  rfl

theorem word_ne_space {ch : Str} (h : isWordChunk ch = true) : isSpaceChunk ch = false := by
  unfold isWordChunk at h
  rw [Bool.and_eq_true] at h
  obtain ⟨hne, hall⟩ := h
  cases ch with
  | nil => simp at hne
  | cons c r =>
    rw [List.all_eq_true] at hall
    have hc := hall c (List.mem_cons_self c r)
    rw [Bool.not_eq_true'] at hc
    unfold isSpaceChunk
    rw [Bool.and_eq_false_iff]
    right
    rw [List.all_eq_false]
    refine ⟨c, List.mem_cons_self c r, ?_⟩
    rw [Bool.not_eq_true, beq_eq_false_iff_ne]
    intro he
    rw [he] at hc
    exact absurd hc (by simp [pyIsSpace])

theorem goodChunks_split (cw : Nat) :
    ∀ (xs ys : List Str) (b : Bool), goodChunks cw b (xs ++ ys) = true →
      goodChunks cw b xs = true ∧ goodChunks cw (nextFlag b xs) ys = true := by
  intro xs
  induction xs with
  | nil => intro ys b h; exact ⟨goodChunks_nil cw b, h⟩
  | cons ch xs' ih =>
    intro ys b h
    cases b with
    | true =>
      rw [List.cons_append, goodChunks_cons_true] at h
      obtain ⟨h1, h2, h3⟩ := h
      obtain ⟨h4, h5⟩ := ih ys false h3
      exact ⟨goodChunks_cons_true.2 ⟨h1, h2, h4⟩, h5⟩
    | false =>
      rw [List.cons_append, goodChunks_cons_false] at h
      obtain ⟨h1, h2, h3⟩ := h
      obtain ⟨h4, h5⟩ := ih ys true h3
      exact ⟨goodChunks_cons_false.2 ⟨h1, h2, h4⟩, h5⟩

theorem goodChunks_all_le {cw : Nat} (h5 : 5 ≤ cw) :
    ∀ (l : List Str) (b : Bool), goodChunks cw b l = true → ∀ ch ∈ l, ch.length ≤ cw := by
  intro l
  induction l with
  | nil => intro b _ ch hch; exact absurd hch (List.not_mem_nil ch)
  | cons c r ih =>
    intro b h ch hch
    rw [List.mem_cons] at hch
    cases b with
    | true =>
      rw [goodChunks_cons_true] at h
      rcases hch with he | hm
      · exact he ▸ h.2.1
      · exact ih false h.2.2 ch hm
    | false =>
      rw [goodChunks_cons_false] at h
      rcases hch with he | hm
      · exact he ▸ le_trans h.2.1 h5
      · exact ih true h.2.2 ch hm

theorem goodChunks_ends_word (cw : Nat) :
    ∀ (l : List Str) (b : Bool), goodChunks cw b l = true → l ≠ [] → nextFlag b l = false →
      ∃ l' w, l = l' ++ [w] ∧ isWordChunk w = true := by
  intro l
  induction l with
  | nil => intro b _ hne _; exact absurd rfl hne
  | cons c r ih =>
    intro b h _ hf
    cases r with
    | nil =>
      have hb : b = true := by
        unfold nextFlag at hf
        cases b with
        | true => rfl
        | false => simp [nextFlag] at hf
      subst hb
      rw [goodChunks_cons_true] at h
      exact ⟨[], c, rfl, h.1⟩
    | cons c2 r2 =>
      have hgr : goodChunks cw (!b) (c2 :: r2) = true := by
        cases b with
        | true => rw [goodChunks_cons_true] at h; exact h.2.2
        | false => rw [goodChunks_cons_false] at h; exact h.2.2
      obtain ⟨l', w, he, hw⟩ := ih (!b) hgr (by simp) hf
      exact ⟨c :: l', w, by rw [List.cons_append, ← he], hw⟩

theorem goodChunks_ends_space (cw : Nat) :
    ∀ (l : List Str) (b : Bool), goodChunks cw b l = true → l ≠ [] → nextFlag b l = true →
      ∃ l' s, l = l' ++ [s] ∧ isSpaceChunk s = true ∧ s.length ≤ 5 ∧
        goodChunks cw b l' = true ∧ nextFlag b l' = false := by
  intro l
  induction l with
  | nil => intro b _ hne _; exact absurd rfl hne
  | cons c r ih =>
    intro b h _ hf
    cases r with
    | nil =>
      have hb : b = false := by
        unfold nextFlag at hf
        cases b with
        | true => simp [nextFlag] at hf
        | false => rfl
      subst hb
      rw [goodChunks_cons_false] at h
      exact ⟨[], c, rfl, h.1, h.2.1, rfl, rfl⟩
    | cons c2 r2 =>
      have hgr : goodChunks cw (!b) (c2 :: r2) = true := by
        cases b with
        | true => rw [goodChunks_cons_true] at h; exact h.2.2
        | false => rw [goodChunks_cons_false] at h; exact h.2.2
      obtain ⟨l', s, he, hs, hl5, hg, hnf⟩ := ih (!b) hgr (by simp) hf
      refine ⟨c :: l', s, by rw [List.cons_append, ← he], hs, hl5, ?_, hnf⟩
      cases b with
      | true =>
        rw [goodChunks_cons_true] at h
        exact goodChunks_cons_true.2 ⟨h.1, h.2.1, hg⟩
      | false =>
        rw [goodChunks_cons_false] at h
        exact goodChunks_cons_false.2 ⟨h.1, h.2.1, hg⟩

theorem dropTrailingWs_concat_word (l : List Str) (w : Str) (h : isWordChunk w = true) :
    dropTrailingWs (l ++ [w]) = l ++ [w] := by
  unfold dropTrailingWs
  rw [List.reverse_append]
  simp only [List.reverse_cons, List.reverse_nil, List.nil_append, List.singleton_append]
  rw [word_not_ws h]
  simp

theorem dropTrailingWs_concat_space (l : List Str) (s : Str) (h : isWsChunk s = true) :
    dropTrailingWs (l ++ [s]) = l := by
  unfold dropTrailingWs
  rw [List.reverse_append]
  simp only [List.reverse_cons, List.reverse_nil, List.nil_append, List.singleton_append]
  rw [h]
  simp

/-- The canonical wrap run: `_wrap_chunks` at content width `cw` with
adequate fuel, starting before any emitted line. -/
def WG (cw : Nat) (N : List Str) : List (List Str) :=
  wrapGo (cw : Int) (mes N + 1) false N

theorem wrapGo_cons (cw : Int) (fuel : Nat) (b : Bool) (ch : Str) (t : List Str) :
    wrapGo cw (fuel + 1) b (ch :: t) =
      match (wrapStep cw b (ch :: t)).1 with
      | some l => l :: wrapGo cw fuel true (wrapStep cw b (ch :: t)).2
      | none => wrapGo cw fuel b (wrapStep cw b (ch :: t)).2 := rfl

theorem wrapGo_nil (cw : Int) (fuel : Nat) (b : Bool) : wrapGo cw fuel b [] = [] := by
  cases fuel <;> rfl

theorem sp5_isSpace : isSpaceChunk sp5 = true := rfl

theorem sp5_isWs : isWsChunk sp5 = true := rfl

theorem sp5_length : sp5.length = 5 := rfl

theorem space_len_pos {s : Str} (h : isSpaceChunk s = true) : 1 ≤ s.length := by
  unfold isSpaceChunk at h
  rw [Bool.and_eq_true] at h
  cases s with
  | nil => simp at h
  | cons c r => simp

theorem word_len_pos {w : Str} (h : isWordChunk w = true) : 1 ≤ w.length := by
  unfold isWordChunk at h
  rw [Bool.and_eq_true] at h
  cases s : w with
  | nil => rw [s] at h; simp at h
  | cons c r => simp

theorem goodChunks_append (cw : Nat) :
    ∀ (xs ys : List Str) (b : Bool), goodChunks cw b xs = true →
      goodChunks cw (nextFlag b xs) ys = true → goodChunks cw b (xs ++ ys) = true := by
  intro xs
  induction xs with
  | nil => intro ys b _ hy; exact hy
  | cons ch xs' ih =>
    intro ys b hx hy
    cases b with
    | true =>
      rw [goodChunks_cons_true] at hx
      rw [List.cons_append, goodChunks_cons_true]
      exact ⟨hx.1, hx.2.1, ih ys false hx.2.2 hy⟩
    | false =>
      rw [goodChunks_cons_false] at hx
      rw [List.cons_append, goodChunks_cons_false]
      exact ⟨hx.1, hx.2.1, ih ys true hx.2.2 hy⟩

theorem mes_cons (ch : Str) (t : List Str) : mes (ch :: t) = ch.length + 1 + mes t := by
  simp [mes]
  omega

theorem mes_append (a b : List Str) : mes (a ++ b) = mes a + mes b := by
  simp [mes]
  omega

theorem wrapStep_eval (cw : Int) (b : Bool) (n1 : Str) (N' : List Str)
    (hws : isWsChunk n1 = false)
    (t : List Str) (sl : Nat) (r : List Str)
    (hfill : fillLine cw [] 0 (n1 :: N') = (t, sl, r))
    (hnolong : ∀ ch r2, r = ch :: r2 → ¬((ch.length : Int) > cw)) :
    wrapStep cw b (n1 :: N') =
      (if (dropTrailingWs t).isEmpty then none else some (dropTrailingWs t), r) := by
  unfold wrapStep
  dsimp only
  rw [hws, Bool.and_false]
  simp only [Bool.false_eq_true, if_false]
  rw [hfill]
  dsimp only
  cases r with
  | nil => rfl
  | cons ch r2 =>
    dsimp only
    rw [if_neg (hnolong ch r2 rfl)]

theorem wrapStep_good {cw : Nat} (h5 : 5 ≤ cw) (N : List Str)
    (hN : goodChunks cw true N = true) (hne : N ≠ []) :
    ∃ L R, (∀ b, wrapStep (cw : Int) b N = (some L, R)) ∧ L ≠ [] ∧
      L.head? = N.head? ∧
      goodChunks cw true L = true ∧ nextFlag true L = false ∧ sumLen L ≤ cw ∧
      (R = [] ∨
        (∃ s R1, R = s :: R1 ∧ isSpaceChunk s = true ∧ s.length ≤ 5 ∧
          N = L ++ s :: R1 ∧ goodChunks cw true R1 = true ∧ cw < sumLen L + s.length) ∨
        (∃ s w R2, R = w :: R2 ∧ isSpaceChunk s = true ∧ s.length ≤ 5 ∧
          isWordChunk w = true ∧
          N = L ++ s :: w :: R2 ∧ goodChunks cw true (w :: R2) = true ∧
          sumLen L + s.length ≤ cw ∧ cw < sumLen L + s.length + w.length)) := by
  cases N with
  | nil => exact absurd rfl hne
  | cons n1 N' =>
    obtain ⟨hw1, hl1, hgood'⟩ := goodChunks_cons_true.1 hN
    have hws := word_not_ws hw1
    obtain ⟨t, r, hfill, hsplit, hle, hbreak⟩ := fillLine_spec (cw : Int) (n1 :: N') [] 0
    rw [List.nil_append] at hfill
    have hsum : ((0 + sumLen t : Nat) : Int) ≤ (cw : Int) := by
      apply hle
      exact_mod_cast Nat.zero_le cw
    have hsumN : sumLen t ≤ cw := by
      rw [Nat.zero_add] at hsum
      exact_mod_cast hsum
    have ht_ne : t ≠ [] := by
      intro h0
      subst h0
      rw [List.nil_append] at hsplit
      have hb := hbreak n1 N' hsplit.symm
      rw [sumLen_nil] at hb
      push_cast at hb
      omega
    have hgN2 : goodChunks cw true (t ++ r) = true := by rw [← hsplit]; exact hN
    obtain ⟨hgt, hgr⟩ := goodChunks_split cw t r true hgN2
    have hnolong : ∀ ch r2, r = ch :: r2 → ¬((ch.length : Int) > (cw : Int)) := by
      intro ch r2 hr
      have hch : ch.length ≤ cw :=
        goodChunks_all_le h5 r _ hgr ch (by rw [hr]; exact List.mem_cons_self ch r2)
      omega
    have hstep := fun b => wrapStep_eval (cw : Int) b n1 N' hws t (0 + sumLen t) r hfill hnolong
    have hthead : t.head? = some n1 := by
      cases t with
      | nil => exact absurd rfl ht_ne
      | cons t1 t2 =>
        rw [List.cons_append, List.cons_eq_cons] at hsplit
        rw [hsplit.1]
        rfl
    cases hnf : nextFlag true t with
    | false =>
      obtain ⟨l', w, htw, hww⟩ := goodChunks_ends_word cw t true hgt ht_ne hnf
      have hdt : dropTrailingWs t = t := by rw [htw]; exact dropTrailingWs_concat_word l' w hww
      have hie : t.isEmpty = false := by
        cases t with
        | nil => exact absurd rfl ht_ne
        | cons a b => rfl
      refine ⟨t, r, ?_, ht_ne, hthead, hgt, hnf, hsumN, ?_⟩
      · intro b
        rw [hstep b, hdt, hie]
        simp
      · cases hr : r with
        | nil => exact Or.inl rfl
        | cons ch r1 =>
          right; left
          rw [hnf, hr] at hgr
          obtain ⟨hs, hs5, hg1⟩ := goodChunks_cons_false.1 hgr
          have hbk := hbreak ch r1 hr
          rw [Nat.zero_add] at hbk
          refine ⟨ch, r1, rfl, hs, hs5, ?_, hg1, by omega⟩
          rw [← hr, hsplit]
    | true =>
      obtain ⟨l', s, hts, hss, hs5, hgl', hnf'⟩ := goodChunks_ends_space cw t true hgt ht_ne hnf
      have hdt : dropTrailingWs t = l' := by
        rw [hts]; exact dropTrailingWs_concat_space l' s (space_is_ws hss)
      have hl'ne : l' ≠ [] := by
        intro h0
        subst h0
        rw [List.nil_append] at hts
        rw [hts] at hthead
        rw [List.head?_cons, Option.some_inj] at hthead
        have hcontra := word_ne_space hw1
        rw [hthead] at hss
        rw [hss] at hcontra
        exact Bool.noConfusion hcontra
      have hslt : sumLen t = sumLen l' + s.length := by
        rw [hts, sumLen_append, sumLen_cons, sumLen_nil]
        omega
      have hl'head : l'.head? = some n1 := by
        cases l' with
        | nil => exact absurd rfl hl'ne
        | cons a b =>
          rw [hts, List.cons_append, List.head?_cons] at hthead
          rw [List.head?_cons]
          exact hthead
      have hie : l'.isEmpty = false := by
        cases l' with
        | nil => exact absurd rfl hl'ne
        | cons a b => rfl
      refine ⟨l', r, ?_, hl'ne, hl'head, hgl', hnf', by omega, ?_⟩
      · intro b
        rw [hstep b, hdt, hie]
        simp
      · cases hr : r with
        | nil => exact Or.inl rfl
        | cons ch r2 =>
          right; right
          rw [hnf, hr] at hgr
          have hgr2 := hgr
          obtain ⟨hwch, hchle, hg2⟩ := goodChunks_cons_true.1 hgr
          have hbk := hbreak ch r2 hr
          rw [Nat.zero_add] at hbk
          refine ⟨s, ch, r2, rfl, hss, hs5, hwch, ?_, hgr2, by omega, by omega⟩
          rw [← hr, hsplit, hts, List.append_assoc, List.singleton_append]

theorem wrapStep_drop_ws (cw : Int) (s : Str) (N : List Str) (hs : isWsChunk s = true) :
    wrapStep cw true (s :: N) = wrapStep cw false N := by
  unfold wrapStep
  dsimp only
  rw [hs]
  cases N with
  | nil => rfl
  | cons m N2 => rfl

theorem mes_pos {l : List Str} (h : l ≠ []) : 1 ≤ mes l := by
  cases l with
  | nil => exact absurd rfl h
  | cons c t => rw [mes_cons]; omega

theorem WG_nil (cw : Nat) : WG cw [] = [] := rfl

theorem wrapGo_succ_ne (cw : Int) (fuel : Nat) (b : Bool) (chunks : List Str)
    (h : chunks ≠ []) :
    wrapGo cw (fuel + 1) b chunks =
      match (wrapStep cw b chunks).1 with
      | some l => l :: wrapGo cw fuel true (wrapStep cw b chunks).2
      | none => wrapGo cw fuel b (wrapStep cw b chunks).2 := by
  cases chunks with
  | nil => exact absurd rfl h
  | cons c t => rfl

theorem wrapGo_norm {cw : Nat} (h5 : 5 ≤ cw) :
    ∀ (n : Nat) (N : List Str), mes N ≤ n → goodChunks cw true N = true →
      (∀ (f : Nat) (b : Bool), mes N < f → wrapGo (cw : Int) f b N = WG cw N) ∧
      (∀ (s : Str), isWsChunk s = true →
        ∀ (f : Nat), mes (s :: N) < f → wrapGo (cw : Int) f true (s :: N) = WG cw N) := by
  intro n
  induction n with
  | zero =>
    intro N hm _
    have hN0 : N = [] := by
      cases N with
      | nil => rfl
      | cons c t => rw [mes_cons] at hm; omega
    subst hN0
    constructor
    · intro f b _
      rw [wrapGo_nil, WG_nil]
    · intro s hs f hf
      rw [mes_cons, mes] at hf
      obtain ⟨f2, rfl⟩ : ∃ f2, f = f2 + 1 := ⟨f - 1, by omega⟩
      rw [wrapGo_cons, wrapStep_drop_ws (cw : Int) s [] hs]
      have hsv : wrapStep (cw : Int) false [] = (none, []) := rfl
      rw [hsv]
      dsimp only
      rw [wrapGo_nil, WG_nil]
  | succ n ih =>
    intro N hm hN
    by_cases hNe : N = []
    · subst hNe
      constructor
      · intro f b _
        rw [wrapGo_nil, WG_nil]
      · intro s hs f hf
        rw [mes_cons, mes] at hf
        obtain ⟨f2, rfl⟩ : ∃ f2, f = f2 + 1 := ⟨f - 1, by omega⟩
        rw [wrapGo_cons, wrapStep_drop_ws (cw : Int) s [] hs]
        have hsv : wrapStep (cw : Int) false [] = (none, []) := rfl
        rw [hsv]
        dsimp only
        rw [wrapGo_nil, WG_nil]
    · obtain ⟨L, R, hstep, hLne, hLhead, hLgood, hLnf, hLsum, hcase⟩ :=
        wrapStep_good h5 N hN hNe
      have hmesL : 1 ≤ mes L := mes_pos hLne
      have hmesN : 1 ≤ mes N := mes_pos hNe
      have hcont : ∀ g : Nat, mes N ≤ g →
          wrapGo (cw : Int) g true R = wrapGo (cw : Int) (mes N) true R := by
        intro g hg
        rcases hcase with hA | ⟨s, R1, hr, hsSp, hs5, hNd, hgR1, _⟩ |
          ⟨s, w, R2, hr, hsSp, hs5, hwW, hNd, hgR, _, _⟩
        · rw [hA, wrapGo_nil, wrapGo_nil]
        · have hspos := space_len_pos hsSp
          have hd1 : mes N = mes L + mes (s :: R1) := by rw [hNd, mes_append]
          have hd2 : mes (s :: R1) = s.length + 1 + mes R1 := mes_cons s R1
          have hmR1 : mes R1 ≤ n := by omega
          have h2 := (ih R1 hmR1 hgR1).2 s (space_is_ws hsSp)
          rw [hr, h2 g (by omega), h2 (mes N) (by omega)]
        · have hspos := space_len_pos hsSp
          have hd1 : mes N = mes L + mes (s :: w :: R2) := by rw [hNd, mes_append]
          have hd2 : mes (s :: w :: R2) = s.length + 1 + mes (w :: R2) := mes_cons s (w :: R2)
          have hmR : mes (w :: R2) ≤ n := by omega
          have h1 := (ih (w :: R2) hmR hgR).1
          rw [hr, h1 g true (by omega), h1 (mes N) true (by omega)]
      constructor
      · intro f b hf
        obtain ⟨f2, rfl⟩ : ∃ f2, f = f2 + 1 := ⟨f - 1, by omega⟩
        rw [wrapGo_succ_ne (cw : Int) f2 b N hNe, hstep b]
        dsimp only
        unfold WG
        rw [wrapGo_succ_ne (cw : Int) (mes N) false N hNe, hstep false]
        dsimp only
        rw [hcont f2 (by omega)]
      · intro s hs f hf
        have hd : mes (s :: N) = s.length + 1 + mes N := mes_cons s N
        obtain ⟨f2, rfl⟩ : ∃ f2, f = f2 + 1 := ⟨f - 1, by omega⟩
        rw [wrapGo_succ_ne (cw : Int) f2 true (s :: N) (List.cons_ne_nil s N)]
        rw [wrapStep_drop_ws (cw : Int) s N hs, hstep false]
        dsimp only
        unfold WG
        rw [wrapGo_succ_ne (cw : Int) (mes N) false N hNe, hstep false]
        dsimp only
        rw [hcont f2 (by omega)]

theorem interChunks_nil : interChunks [] = [] := rfl

theorem interChunks_single (L : List Str) : interChunks [L] = L := by
  unfold interChunks List.intercalate
  rw [List.intersperse_single]
  simp

theorem interChunks_cons₂ (L L2 : List Str) (LS : List (List Str)) :
    interChunks (L :: L2 :: LS) = L ++ sp5 :: interChunks (L2 :: LS) := by
  unfold interChunks List.intercalate
  rw [List.intersperse_cons₂]
  simp

/-- The chunks of the lines of a wrap run are well formed: nonempty,
alternating word-first, ending in a word, and fitting the content width. -/
theorem WG_cases {cw : Nat} (h5 : 5 ≤ cw) (N : List Str)
    (hN : goodChunks cw true N = true) (hNe : N ≠ []) :
    ∃ L R, (∀ b, wrapStep (cw : Int) b N = (some L, R)) ∧ L ≠ [] ∧
      L.head? = N.head? ∧
      goodChunks cw true L = true ∧ nextFlag true L = false ∧ sumLen L ≤ cw ∧
      ((R = [] ∧ WG cw N = [L]) ∨
        (∃ s R1, R = s :: R1 ∧ isSpaceChunk s = true ∧ s.length ≤ 5 ∧
          N = L ++ s :: R1 ∧ goodChunks cw true R1 = true ∧ cw < sumLen L + s.length ∧
          WG cw N = L :: WG cw R1 ∧ mes R1 < mes N) ∨
        (∃ s w R2, R = w :: R2 ∧ isSpaceChunk s = true ∧ s.length ≤ 5 ∧
          isWordChunk w = true ∧
          N = L ++ s :: w :: R2 ∧ goodChunks cw true (w :: R2) = true ∧
          sumLen L + s.length ≤ cw ∧ cw < sumLen L + s.length + w.length ∧
          WG cw N = L :: WG cw (w :: R2) ∧ mes (w :: R2) < mes N)) := by
  obtain ⟨L, R, hstep, hLne, hLhead, hLgood, hLnf, hLsum, hcase⟩ := wrapStep_good h5 N hN hNe
  have hmesL : 1 ≤ mes L := mes_pos hLne
  have hWG : WG cw N = L :: wrapGo (cw : Int) (mes N) true R := by
    unfold WG
    rw [wrapGo_succ_ne (cw : Int) (mes N) false N hNe, hstep false]
  refine ⟨L, R, hstep, hLne, hLhead, hLgood, hLnf, hLsum, ?_⟩
  rcases hcase with hA | ⟨s, R1, hr, hsSp, hs5, hNd, hgR1, hbig⟩ |
    ⟨s, w, R2, hr, hsSp, hs5, hwW, hNd, hgR, hfit, hbig⟩
  · refine Or.inl ⟨hA, ?_⟩
    rw [hWG, hA, wrapGo_nil]
  · have hspos := space_len_pos hsSp
    have hd1 : mes N = mes L + mes (s :: R1) := by rw [hNd, mes_append]
    have hd2 : mes (s :: R1) = s.length + 1 + mes R1 := mes_cons s R1
    refine Or.inr (Or.inl ⟨s, R1, hr, hsSp, hs5, hNd, hgR1, hbig, ?_, by omega⟩)
    rw [hWG, hr]
    congr 1
    exact (wrapGo_norm h5 (mes R1) R1 le_rfl hgR1).2 s (space_is_ws hsSp) (mes N) (by omega)
  · have hspos := space_len_pos hsSp
    have hd1 : mes N = mes L + mes (s :: w :: R2) := by rw [hNd, mes_append]
    have hd2 : mes (s :: w :: R2) = s.length + 1 + mes (w :: R2) := mes_cons s (w :: R2)
    refine Or.inr (Or.inr ⟨s, w, R2, hr, hsSp, hs5, hwW, hNd, hgR, hfit, hbig, ?_, by omega⟩)
    rw [hWG, hr]
    congr 1
    exact (wrapGo_norm h5 (mes (w :: R2)) (w :: R2) le_rfl hgR).1 (mes N) true (by omega)

theorem WG_linesWF {cw : Nat} (h5 : 5 ≤ cw) :
    ∀ (n : Nat) (N : List Str), mes N ≤ n → goodChunks cw true N = true →
      ∀ L ∈ WG cw N,
        L ≠ [] ∧ goodChunks cw true L = true ∧ nextFlag true L = false ∧ sumLen L ≤ cw := by
  intro n
  induction n with
  | zero =>
    intro N hm _ L hL
    have hN0 : N = [] := by
      cases N with
      | nil => rfl
      | cons c t => rw [mes_cons] at hm; omega
    rw [hN0, WG_nil] at hL
    exact absurd hL (List.not_mem_nil L)
  | succ n ih =>
    intro N hm hN L hL
    by_cases hNe : N = []
    · rw [hNe, WG_nil] at hL
      exact absurd hL (List.not_mem_nil L)
    · obtain ⟨L1, R, _, hLne, _, hLgood, hLnf, hLsum, hcase⟩ := WG_cases h5 N hN hNe
      rcases hcase with ⟨_, hWG⟩ | ⟨s, R1, _, _, _, _, hgR1, _, hWG, hmes⟩ |
        ⟨s, w, R2, _, _, _, _, _, hgR, _, _, hWG, hmes⟩
      · rw [hWG, List.mem_singleton] at hL
        exact hL ▸ ⟨hLne, hLgood, hLnf, hLsum⟩
      · rw [hWG, List.mem_cons] at hL
        rcases hL with hL | hL
        · exact hL ▸ ⟨hLne, hLgood, hLnf, hLsum⟩
        · exact ih R1 (by omega) hgR1 L hL
      · rw [hWG, List.mem_cons] at hL
        rcases hL with hL | hL
        · exact hL ▸ ⟨hLne, hLgood, hLnf, hLsum⟩
        · exact ih (w :: R2) (by omega) hgR L hL

theorem WG_head {cw : Nat} (h5 : 5 ≤ cw) (N : List Str)
    (hN : goodChunks cw true N = true) (hNe : N ≠ []) :
    ∃ L LS, WG cw N = L :: LS ∧ L.head? = N.head? := by
  obtain ⟨L1, R, _, _, hLhead, _, _, _, hcase⟩ := WG_cases h5 N hN hNe
  rcases hcase with ⟨_, hWG⟩ | ⟨s, R1, _, _, _, _, _, _, hWG, _⟩ |
    ⟨s, w, R2, _, _, _, _, _, _, _, _, hWG, _⟩
  · exact ⟨L1, [], hWG, hLhead⟩
  · exact ⟨L1, WG cw R1, hWG, hLhead⟩
  · exact ⟨L1, WG cw (w :: R2), hWG, hLhead⟩

theorem dropTrailingWs_of_ends_word {cw : Nat} (L : List Str)
    (hg : goodChunks cw true L = true) (hne : L ≠ []) (hnf : nextFlag true L = false) :
    dropTrailingWs L = L := by
  obtain ⟨l', w, he, hw⟩ := goodChunks_ends_word cw L true hg hne hnf
  rw [he]
  exact dropTrailingWs_concat_word l' w hw

theorem isEmpty_false_of_ne_nil {L : List Str} (h : L ≠ []) : L.isEmpty = false := by
  cases L with
  | nil => exact absurd rfl h
  | cons a b => rfl

theorem wrapStep_refill_a {cw : Nat} (L : List Str) (b : Bool)
    (hg : goodChunks cw true L = true) (hne : L ≠ []) (hnf : nextFlag true L = false)
    (hsum : sumLen L ≤ cw) :
    wrapStep (cw : Int) b L = (some L, []) := by
  cases hL : L with
  | nil => exact absurd hL hne
  | cons n1 L' =>
    rw [← hL]
    have hw1 : isWordChunk n1 = true := (goodChunks_cons_true.1 (hL ▸ hg)).1
    have hws := word_not_ws hw1
    have hfill : fillLine (cw : Int) [] 0 (n1 :: L') = (L, 0 + sumLen L, []) := by
      rw [← hL]
      have h1 := fillLine_takeAll (cw : Int) L [] [] 0 (by push_cast; omega)
      rw [List.append_nil] at h1
      rw [h1, List.nil_append]
      rfl
    have hstep := wrapStep_eval (cw : Int) b n1 L' hws L (0 + sumLen L) [] hfill
      (fun ch r2 h => by cases h)
    rw [← hL] at hstep
    rw [hstep, dropTrailingWs_of_ends_word L hg hne hnf, isEmpty_false_of_ne_nil hne]
    simp

theorem wrapStep_refill_b {cw : Nat} (h5 : 5 ≤ cw) (L : List Str) (rest : List Str) (b : Bool)
    (hg : goodChunks cw true L = true) (hne : L ≠ []) (hnf : nextFlag true L = false)
    (hsum : sumLen L ≤ cw) (hbig : cw < sumLen L + 5) :
    wrapStep (cw : Int) b (L ++ sp5 :: rest) = (some L, sp5 :: rest) := by
  cases hL : L with
  | nil => exact absurd hL hne
  | cons n1 L' =>
    rw [← hL]
    have hw1 : isWordChunk n1 = true := (goodChunks_cons_true.1 (hL ▸ hg)).1
    have hws := word_not_ws hw1
    have hfill : fillLine (cw : Int) [] 0 (n1 :: (L' ++ sp5 :: rest)) =
        (L, 0 + sumLen L, sp5 :: rest) := by
      rw [← List.cons_append, ← hL]
      rw [fillLine_takeAll (cw : Int) L (sp5 :: rest) [] 0 (by push_cast; omega)]
      rw [List.nil_append]
      rw [fillLine_stop (cw : Int) L (0 + sumLen L) sp5 rest]
      rw [sp5_length]
      push_cast
      omega
    have hstep := wrapStep_eval (cw : Int) b n1 (L' ++ sp5 :: rest) hws L (0 + sumLen L)
      (sp5 :: rest) hfill
      (fun ch r2 h => by
        rw [List.cons_eq_cons] at h
        rw [← h.1, sp5_length]
        push_cast
        omega)
    have hLrw : L ++ sp5 :: rest = n1 :: (L' ++ sp5 :: rest) := by rw [hL, List.cons_append]
    rw [← hLrw] at hstep
    rw [hstep, dropTrailingWs_of_ends_word L hg hne hnf, isEmpty_false_of_ne_nil hne]
    simp

theorem wrapStep_refill_c {cw : Nat} (L : List Str) (w : Str) (rest : List Str)
    (b : Bool)
    (hg : goodChunks cw true L = true) (hne : L ≠ [])
    (hwle : w.length ≤ cw)
    (hfit : sumLen L + 5 ≤ cw) (hbig : cw < sumLen L + 5 + w.length) :
    wrapStep (cw : Int) b (L ++ sp5 :: w :: rest) = (some L, w :: rest) := by
  cases hL : L with
  | nil => exact absurd hL hne
  | cons n1 L' =>
    rw [← hL]
    have hw1 : isWordChunk n1 = true := (goodChunks_cons_true.1 (hL ▸ hg)).1
    have hws := word_not_ws hw1
    have hfill : fillLine (cw : Int) [] 0 (n1 :: (L' ++ sp5 :: w :: rest)) =
        (L ++ [sp5], 0 + sumLen L + 5, w :: rest) := by
      rw [← List.cons_append, ← hL]
      rw [fillLine_takeAll (cw : Int) L (sp5 :: w :: rest) [] 0 (by push_cast; omega)]
      rw [List.nil_append]
      have h2 : sp5 :: w :: rest = [sp5] ++ (w :: rest) := rfl
      rw [h2]
      rw [fillLine_takeAll (cw : Int) [sp5] (w :: rest) L (0 + sumLen L)
        (by rw [sumLen_cons, sumLen_nil, sp5_length]; push_cast; omega)]
      rw [fillLine_stop]
      · rw [sumLen_cons, sumLen_nil, sp5_length]
      · rw [sumLen_cons, sumLen_nil, sp5_length]
        push_cast
        omega
    have hstep := wrapStep_eval (cw : Int) b n1 (L' ++ sp5 :: w :: rest) hws (L ++ [sp5])
      (0 + sumLen L + 5) (w :: rest) hfill
      (fun ch r2 h => by
        rw [List.cons_eq_cons] at h
        rw [← h.1]
        omega)
    have hLrw : L ++ sp5 :: w :: rest = n1 :: (L' ++ sp5 :: w :: rest) := by
      rw [hL, List.cons_append]
    rw [← hLrw] at hstep
    rw [hstep, dropTrailingWs_concat_space L sp5 sp5_isWs, isEmpty_false_of_ne_nil hne]
    simp

theorem interChunks_good {cw : Nat} :
    ∀ (LS : List (List Str)),
      (∀ L ∈ LS, L ≠ [] ∧ goodChunks cw true L = true ∧ nextFlag true L = false) →
      goodChunks cw true (interChunks LS) = true := by
  intro LS
  induction LS with
  | nil => intro _; rw [interChunks_nil]; exact goodChunks_nil cw true
  | cons L LS' ih =>
    intro h
    cases LS' with
    | nil =>
      rw [interChunks_single]
      exact (h L (List.mem_cons_self L [])).2.1
    | cons L2 LS2 =>
      rw [interChunks_cons₂]
      obtain ⟨hne, hg, hnf⟩ := h L (List.mem_cons_self _ _)
      apply goodChunks_append cw L (sp5 :: interChunks (L2 :: LS2)) true hg
      rw [hnf, goodChunks_cons_false]
      exact ⟨sp5_isSpace, by rw [sp5_length], ih (fun L3 hL3 => h L3 (List.mem_cons_of_mem _ hL3))⟩

theorem WG_single_line {cw : Nat} (L : List Str)
    (hg : goodChunks cw true L = true) (hne : L ≠ []) (hnf : nextFlag true L = false)
    (hsum : sumLen L ≤ cw) : WG cw L = [L] := by
  unfold WG
  rw [wrapGo_succ_ne (cw : Int) (mes L) false L hne, wrapStep_refill_a L false hg hne hnf hsum]
  dsimp only
  rw [wrapGo_nil]

theorem interChunks_head (w : Str) (L2 : List Str) (LS2 : List (List Str)) :
    ∃ tl, interChunks ((w :: L2) :: LS2) = w :: tl := by
  cases LS2 with
  | nil => exact ⟨L2, interChunks_single _⟩
  | cons a b =>
    rw [interChunks_cons₂]
    exact ⟨L2 ++ sp5 :: interChunks (a :: b), by rw [List.cons_append]⟩

/-- Re-wrapping the joined lines of a wrap run (with five-space separators,
as produced by newline collapsing plus the indent) reproduces the run. -/
theorem WG_refill {cw : Nat} (h5 : 5 ≤ cw) :
    ∀ (n : Nat) (N : List Str), mes N ≤ n → goodChunks cw true N = true →
      WG cw (interChunks (WG cw N)) = WG cw N := by
  intro n
  induction n with
  | zero =>
    intro N hm _
    have hN0 : N = [] := by
      cases N with
      | nil => rfl
      | cons c t => rw [mes_cons] at hm; omega
    rw [hN0, WG_nil, interChunks_nil, WG_nil]
  | succ n ih =>
    intro N hm hN
    by_cases hNe : N = []
    · rw [hNe, WG_nil, interChunks_nil, WG_nil]
    · obtain ⟨L, R, hstep, hLne, hLhead, hLgood, hLnf, hLsum, hcase⟩ := WG_cases h5 N hN hNe
      have hmesL : 1 ≤ mes L := mes_pos hLne
      rcases hcase with ⟨hA, hWG⟩ | ⟨s, R1, hr, hsSp, hs5, hNd, hgR1, hbig, hWG, hmes1⟩ |
        ⟨s, w, R2, hr, hsSp, hs5, hwW, hNd, hgR, hfit, hbig, hWG, hmes1⟩
      · rw [hWG, interChunks_single]
        rw [WG_single_line L hLgood hLne hLnf hLsum]
      · -- line break at a space run
        have hspos := space_len_pos hsSp
        have hbig5 : cw < sumLen L + 5 := by omega
        rw [hWG]
        cases hWGR : WG cw R1 with
        | nil =>
          rw [interChunks_single, WG_single_line L hLgood hLne hLnf hLsum]
        | cons L2 LS2 =>
          rw [interChunks_cons₂]
          have hICg : goodChunks cw true (interChunks (L2 :: LS2)) = true := by
            apply interChunks_good
            intro L3 hL3
            have := WG_linesWF h5 (mes R1) R1 le_rfl hgR1 L3 (by rw [hWGR]; exact hL3)
            exact ⟨this.1, this.2.1, this.2.2.1⟩
          have hXne : L ++ sp5 :: interChunks (L2 :: LS2) ≠ [] := by
            cases hL : L with
            | nil => exact absurd hL hLne
            | cons a b => rw [List.cons_append]; exact List.cons_ne_nil _ _
          unfold WG
          rw [wrapGo_succ_ne (cw : Int) (mes (L ++ sp5 :: interChunks (L2 :: LS2))) false _ hXne]
          rw [wrapStep_refill_b h5 L (interChunks (L2 :: LS2)) false hLgood hLne hLnf hLsum hbig5]
          dsimp only
          congr 1
          have hmesX : mes (sp5 :: interChunks (L2 :: LS2)) <
              mes (L ++ sp5 :: interChunks (L2 :: LS2)) := by
            rw [mes_append]
            omega
          rw [(wrapGo_norm h5 (mes (interChunks (L2 :: LS2))) (interChunks (L2 :: LS2)) le_rfl
            hICg).2 sp5 sp5_isWs _ hmesX]
          rw [← hWGR]
          exact ih R1 (by omega) hgR1
      · -- line break at a word
        have hspos := space_len_pos hsSp
        have hwle : w.length ≤ cw := (goodChunks_cons_true.1 hgR).2.1
        have hRne : (w :: R2) ≠ [] := List.cons_ne_nil w R2
        obtain ⟨L2, LS2, hWGR, hL2head⟩ := WG_head h5 (w :: R2) hgR hRne
        have hL2w : ∃ L2t, L2 = w :: L2t := by
          cases L2 with
          | nil => rw [List.head?_nil] at hL2head; exact absurd hL2head.symm (by simp)
          | cons a b =>
            rw [List.head?_cons, List.head?_cons, Option.some_inj] at hL2head
            exact ⟨b, by rw [hL2head]⟩
        obtain ⟨L2t, rfl⟩ := hL2w
        rw [hWG, hWGR]
        rw [interChunks_cons₂]
        obtain ⟨tl, htl⟩ := interChunks_head w L2t LS2
        have hICg : goodChunks cw true (interChunks ((w :: L2t) :: LS2)) = true := by
          apply interChunks_good
          intro L3 hL3
          have := WG_linesWF h5 (mes (w :: R2)) (w :: R2) le_rfl hgR L3 (by rw [hWGR]; exact hL3)
          exact ⟨this.1, this.2.1, this.2.2.1⟩
        have hXne : L ++ sp5 :: interChunks ((w :: L2t) :: LS2) ≠ [] := by
          cases hL : L with
          | nil => exact absurd hL hLne
          | cons a b => rw [List.cons_append]; exact List.cons_ne_nil _ _
        have hIH : WG cw (interChunks ((w :: L2t) :: LS2)) = WG cw (w :: R2) := by
          rw [← hWGR]
          exact ih (w :: R2) (by omega) hgR
        by_cases hfit5 : sumLen L + 5 ≤ cw
        · -- the five-space separator would fit, but the next word does not
          have hbig5 : cw < sumLen L + 5 + w.length := by omega
          unfold WG
          rw [wrapGo_succ_ne (cw : Int) (mes (L ++ sp5 :: interChunks ((w :: L2t) :: LS2)))
            false _ hXne]
          rw [htl]
          rw [wrapStep_refill_c L w tl false hLgood hLne hwle hfit5 hbig5]
          dsimp only
          congr 1
          have hmesX : mes (w :: tl) < mes (L ++ sp5 :: w :: tl) := by
            have e1 : mes (L ++ sp5 :: w :: tl) = mes L + mes (sp5 :: w :: tl) :=
              mes_append L (sp5 :: w :: tl)
            have e2 : mes (sp5 :: w :: tl) = sp5.length + 1 + mes (w :: tl) :=
              mes_cons sp5 (w :: tl)
            have e3 : sp5.length = 5 := sp5_length
            omega
          rw [(wrapGo_norm h5 (mes (w :: tl)) (w :: tl) le_rfl (htl ▸ hICg)).1 _ true hmesX]
          rw [← htl]
          exact hIH.trans hWGR
        · -- even the separator does not fit
          have hbig5 : cw < sumLen L + 5 := by omega
          unfold WG
          rw [wrapGo_succ_ne (cw : Int) (mes (L ++ sp5 :: interChunks ((w :: L2t) :: LS2)))
            false _ hXne]
          rw [wrapStep_refill_b h5 L (interChunks ((w :: L2t) :: LS2)) false hLgood hLne hLnf
            hLsum hbig5]
          dsimp only
          congr 1
          have hmesX : mes (sp5 :: interChunks ((w :: L2t) :: LS2)) <
              mes (L ++ sp5 :: interChunks ((w :: L2t) :: LS2)) := by
            rw [mes_append]
            omega
          rw [(wrapGo_norm h5 (mes (interChunks ((w :: L2t) :: LS2)))
            (interChunks ((w :: L2t) :: LS2)) le_rfl hICg).2 sp5 sp5_isWs _ hmesX]
          exact hIH.trans hWGR

/-- The tail of the wrapped output string: every line after the first is
preceded by a newline and the three-space indent. -/
def nlLines (LS : List (List Str)) : Str :=
  (LS.map (fun l => lit "\n   " ++ lineChars l)).flatten

/-- The same tail after newline collapsing: every line after the first is
preceded by five spaces (two from the collapsed newline, three of indent). -/
def spLines (LS : List (List Str)) : Str :=
  (LS.map (fun l => sp5 ++ lineChars l)).flatten

theorem nlLines_nil : nlLines [] = [] := rfl

theorem spLines_nil : spLines [] = [] := rfl

theorem nlLines_cons (L : List Str) (LS : List (List Str)) :
    nlLines (L :: LS) = lit "\n   " ++ lineChars L ++ nlLines LS := by
  unfold nlLines
  rw [List.map_cons, List.flatten_cons]

theorem spLines_cons (L : List Str) (LS : List (List Str)) :
    spLines (L :: LS) = sp5 ++ lineChars L ++ spLines LS := by
  unfold spLines
  rw [List.map_cons, List.flatten_cons]

theorem intercalate_single_str (sep a : Str) : List.intercalate sep [a] = a := by
  unfold List.intercalate
  rw [List.intersperse_single]
  simp

theorem intercalate_cons₂_str (sep a b : Str) (t : List Str) :
    List.intercalate sep (a :: b :: t) = a ++ sep ++ List.intercalate sep (b :: t) := by
  unfold List.intercalate
  rw [List.intersperse_cons₂]
  simp

theorem intercalate_indent :
    ∀ (LS : List (List Str)) (L : List Str),
      List.intercalate (lit "\n") ((L :: LS).map (fun l => lit "   " ++ lineChars l)) =
        lit "   " ++ lineChars L ++ nlLines LS := by
  intro LS
  induction LS with
  | nil =>
    intro L
    rw [List.map_cons, List.map_nil, intercalate_single_str, nlLines_nil, List.append_nil]
  | cons L2 LS' ih =>
    intro L
    rw [List.map_cons, List.map_cons]
    rw [intercalate_cons₂_str]
    rw [show (lit "   " ++ lineChars L2) :: List.map (fun l => lit "   " ++ lineChars l) LS' =
      List.map (fun l => lit "   " ++ lineChars l) (L2 :: LS') from by rw [List.map_cons]]
    rw [ih L2, nlLines_cons]
    rw [show (lit "\n   " : Str) = lit "\n" ++ lit "   " from rfl]
    simp [List.append_assoc]

theorem collapseNLGo_cons (fl : Bool) (c : Char) (r : Str) :
    collapseNLGo fl (c :: r) =
      if c == '\n' then
        (if fl then collapseNLGo true r else ' ' :: ' ' :: collapseNLGo true r)
      else c :: collapseNLGo false r := rfl

theorem collapseNLGo_nf : ∀ (a b : Str), (∀ c ∈ a, c ≠ '\n') →
    collapseNLGo false (a ++ b) = a ++ collapseNLGo false b := by
  intro a
  induction a with
  | nil => intro b _; rfl
  | cons c t ih =>
    intro b h
    rw [List.cons_append, collapseNLGo_cons]
    rw [if_neg (by simpa using h c (List.mem_cons_self c t))]
    rw [ih b (fun x hx => h x (List.mem_cons_of_mem c hx)), List.cons_append]

theorem collapseNLGo_false_nl (r : Str) :
    collapseNLGo false ('\n' :: r) = ' ' :: ' ' :: collapseNLGo true r := rfl

theorem collapseNLGo_true_sp (r : Str) :
    collapseNLGo true (' ' :: r) = ' ' :: collapseNLGo false r := rfl

theorem collapseNLGo_no_nl : ∀ (s : Str) (b : Bool) (c : Char),
    c ∈ collapseNLGo b s → c ≠ '\n' := by
  intro s
  induction s with
  | nil => intro b c hc; exact absurd hc (List.not_mem_nil c)
  | cons a t ih =>
    intro b c hc
    rw [collapseNLGo_cons] at hc
    by_cases ha : a = '\n'
    · rw [if_pos (by simp [ha])] at hc
      cases b with
      | true => exact ih true c hc
      | false =>
        simp only [Bool.false_eq_true, if_false, List.mem_cons] at hc
        rcases hc with rfl | rfl | hc
        · decide
        · decide
        · exact ih true c hc
    · rw [if_neg (by simpa using ha)] at hc
      rw [List.mem_cons] at hc
      rcases hc with rfl | hc
      · exact ha
      · exact ih false c hc

theorem goodChunks_chars {cw : Nat} :
    ∀ (C : List Str) (b : Bool), goodChunks cw b C = true →
      ∀ c ∈ C.flatten, pyIsSpace c = false ∨ c = ' ' := by
  intro C
  induction C with
  | nil => intro b _ c hc; exact absurd hc (List.not_mem_nil c)
  | cons ch r ih =>
    intro b hg c hc
    rw [List.flatten_cons, List.mem_append] at hc
    cases b with
    | true =>
      obtain ⟨hw, _, hr⟩ := goodChunks_cons_true.1 hg
      rcases hc with hc | hc
      · left
        unfold isWordChunk at hw
        rw [Bool.and_eq_true, List.all_eq_true] at hw
        simpa using hw.2 c hc
      · exact ih false hr c hc
    | false =>
      obtain ⟨hs, _, hr⟩ := goodChunks_cons_false.1 hg
      rcases hc with hc | hc
      · right
        unfold isSpaceChunk at hs
        rw [Bool.and_eq_true, List.all_eq_true] at hs
        simpa using hs.2 c hc
      · exact ih true hr c hc

theorem goodChunks_no_nl {cw : Nat} (C : List Str) (b : Bool)
    (hg : goodChunks cw b C = true) : ∀ c ∈ C.flatten, c ≠ '\n' := by
  intro c hc he
  rcases goodChunks_chars C b hg c hc with h | h
  · rw [he] at h
    exact absurd h (by decide)
  · rw [he] at h
    exact absurd h (by decide)

theorem word_chars {ch : Str} (h : isWordChunk ch = true) :
    ∀ c ∈ ch, pyIsSpace c = false := by
  intro c hc
  unfold isWordChunk at h
  rw [Bool.and_eq_true, List.all_eq_true] at h
  simpa using h.2 c hc

theorem space_chars {ch : Str} (h : isSpaceChunk ch = true) :
    ∀ c ∈ ch, c = ' ' := by
  intro c hc
  unfold isSpaceChunk at h
  rw [Bool.and_eq_true, List.all_eq_true] at h
  simpa using h.2 c hc

theorem word_ne_nil {ch : Str} (h : isWordChunk ch = true) : ch ≠ [] := by
  intro he
  have := word_len_pos h
  rw [he] at this
  simp at this

theorem collapseNL_nlLines {cw : Nat} :
    ∀ (LS : List (List Str)), (∀ L ∈ LS, goodChunks cw true L = true) →
      collapseNLGo false (nlLines LS) = spLines LS := by
  intro LS
  induction LS with
  | nil => intro _; rfl
  | cons L LS' ih =>
    intro h
    rw [nlLines_cons, spLines_cons]
    have e1 : lit "\n   " ++ lineChars L ++ nlLines LS' =
        '\n' :: (' ' :: ' ' :: ' ' :: (lineChars L ++ nlLines LS')) := by
      rw [show (lit "\n   " : Str) = '\n' :: ' ' :: ' ' :: ' ' :: [] from rfl]
      simp
    rw [e1, collapseNLGo_false_nl, collapseNLGo_true_sp]
    rw [show collapseNLGo false (' ' :: ' ' :: (lineChars L ++ nlLines LS')) =
      ' ' :: collapseNLGo false (' ' :: (lineChars L ++ nlLines LS')) from rfl]
    rw [show collapseNLGo false (' ' :: (lineChars L ++ nlLines LS')) =
      ' ' :: collapseNLGo false (lineChars L ++ nlLines LS') from rfl]
    rw [collapseNLGo_nf (lineChars L) (nlLines LS')
      (goodChunks_no_nl L true (h L (List.mem_cons_self L LS')))]
    rw [ih (fun L3 h3 => h L3 (List.mem_cons_of_mem L h3))]
    rw [show (sp5 : Str) = ' ' :: ' ' :: ' ' :: ' ' :: ' ' :: [] from rfl]
    simp

theorem chunksGo_nil (k : Bool) (cur : Str) : chunksGo k cur [] = [cur] := rfl

theorem chunksGo_cons (k : Bool) (cur : Str) (c : Char) (r : Str) :
    chunksGo k cur (c :: r) =
      if pyIsSpace c == k then chunksGo k (cur ++ [c]) r
      else cur :: chunksGo (pyIsSpace c) [c] r := rfl

theorem chunksGo_run : ∀ (run t cur : Str) (k : Bool),
    (∀ c ∈ run, pyIsSpace c = k) →
    chunksGo k cur (run ++ t) = chunksGo k (cur ++ run) t := by
  intro run
  induction run with
  | nil => intro t cur k _; rw [List.nil_append, List.append_nil]
  | cons c r ih =>
    intro t cur k h
    rw [List.cons_append, chunksGo_cons]
    rw [h c (List.mem_cons_self c r)]
    rw [if_pos (by simp)]
    rw [ih t (cur ++ [c]) k (fun x hx => h x (List.mem_cons_of_mem c hx))]
    rw [List.append_assoc]
    rfl

theorem chunksGo_break (k : Bool) (cur : Str) (c : Char) (r : Str) (h : pyIsSpace c ≠ k) :
    chunksGo k cur (c :: r) = cur :: chunksGo (pyIsSpace c) [c] r := by
  rw [chunksGo_cons, if_neg (by simpa using h)]

theorem chunksGo_good {cw : Nat} :
    ∀ (C : List Str) (b : Bool) (cur : Str), goodChunks cw b C = true → cur ≠ [] →
      (∀ c ∈ cur, pyIsSpace c = b) →
      chunksGo b cur C.flatten = cur :: C := by
  intro C
  induction C with
  | nil => intro b cur _ _ _; rfl
  | cons ch r ih =>
    intro b cur hg _ hcur
    rw [List.flatten_cons]
    cases b with
    | true =>
      obtain ⟨hw, _, hr⟩ := goodChunks_cons_true.1 hg
      cases hch : ch with
      | nil => exact absurd hch (word_ne_nil hw)
      | cons c0 ch' =>
        have hc0 : pyIsSpace c0 = false :=
          word_chars hw c0 (by rw [hch]; exact List.mem_cons_self c0 ch')
        rw [List.cons_append]
        rw [chunksGo_break true cur c0 _ (by rw [hc0]; simp)]
        rw [hc0]
        rw [show ch' ++ r.flatten = (ch' ++ r.flatten) from rfl]
        rw [chunksGo_run ch' r.flatten [c0] false
          (fun x hx => word_chars hw x (by rw [hch]; exact List.mem_cons_of_mem c0 hx))]
        rw [show [c0] ++ ch' = ch from by rw [hch]; rfl]
        rw [ih false ch hr (word_ne_nil hw) (word_chars hw), hch]
    | false =>
      obtain ⟨hs, _, hr⟩ := goodChunks_cons_false.1 hg
      have hsne : ch ≠ [] := by
        intro he
        have := space_len_pos hs
        rw [he] at this
        simp at this
      have hsws : ∀ c ∈ ch, pyIsSpace c = true := by
        intro c hc
        rw [space_chars hs c hc]
        decide
      cases hch : ch with
      | nil => exact absurd hch hsne
      | cons c0 ch' =>
        have hc0 : pyIsSpace c0 = true :=
          hsws c0 (by rw [hch]; exact List.mem_cons_self c0 ch')
        rw [List.cons_append]
        rw [chunksGo_break false cur c0 _ (by rw [hc0]; simp)]
        rw [hc0]
        rw [chunksGo_run ch' r.flatten [c0] true
          (fun x hx => hsws x (by rw [hch]; exact List.mem_cons_of_mem c0 hx))]
        rw [show [c0] ++ ch' = ch from by rw [hch]; rfl]
        rw [ih true ch hr hsne hsws, hch]

theorem chunksOf_cons (c : Char) (r : Str) :
    chunksOf (c :: r) = chunksGo (pyIsSpace c) [c] r := rfl

theorem chunksOf_good {cw : Nat} (C : List Str) (b : Bool) (hg : goodChunks cw b C = true) :
    chunksOf C.flatten = C := by
  cases C with
  | nil => rfl
  | cons ch r =>
    rw [List.flatten_cons]
    cases b with
    | true =>
      obtain ⟨hw, _, hr⟩ := goodChunks_cons_true.1 hg
      cases hch : ch with
      | nil => exact absurd hch (word_ne_nil hw)
      | cons c0 ch' =>
        have hc0 : pyIsSpace c0 = false :=
          word_chars hw c0 (by rw [hch]; exact List.mem_cons_self c0 ch')
        rw [List.cons_append, chunksOf_cons, hc0]
        rw [chunksGo_run ch' r.flatten [c0] false
          (fun x hx => word_chars hw x (by rw [hch]; exact List.mem_cons_of_mem c0 hx))]
        rw [show [c0] ++ ch' = ch from by rw [hch]; rfl]
        rw [chunksGo_good r false ch hr (word_ne_nil hw) (word_chars hw), hch]
    | false =>
      obtain ⟨hs, _, hr⟩ := goodChunks_cons_false.1 hg
      have hsne : ch ≠ [] := by
        intro he
        have := space_len_pos hs
        rw [he] at this
        simp at this
      have hsws : ∀ c ∈ ch, pyIsSpace c = true := by
        intro c hc
        rw [space_chars hs c hc]
        decide
      cases hch : ch with
      | nil => exact absurd hch hsne
      | cons c0 ch' =>
        have hc0 : pyIsSpace c0 = true :=
          hsws c0 (by rw [hch]; exact List.mem_cons_self c0 ch')
        rw [List.cons_append, chunksOf_cons, hc0]
        rw [chunksGo_run ch' r.flatten [c0] true
          (fun x hx => hsws x (by rw [hch]; exact List.mem_cons_of_mem c0 hx))]
        rw [show [c0] ++ ch' = ch from by rw [hch]; rfl]
        rw [chunksGo_good r true ch hr hsne hsws, hch]

/-- A string ending in a non-whitespace character. -/
def endsNonWs (s : Str) : Prop := ∃ t c, s = t ++ [c] ∧ pyIsSpace c = false

theorem endsNonWs_append (a : Str) {s : Str} (h : endsNonWs s) : endsNonWs (a ++ s) := by
  obtain ⟨t, c, he, hc⟩ := h
  exact ⟨a ++ t, c, by rw [he, List.append_assoc], hc⟩

theorem line_head_char {cw : Nat} (L : List Str) (hg : goodChunks cw true L = true)
    (hne : L ≠ []) : ∃ c t, lineChars L = c :: t ∧ pyIsSpace c = false := by
  cases hL : L with
  | nil => exact absurd hL hne
  | cons ch r =>
    have hw : isWordChunk ch = true := (goodChunks_cons_true.1 (hL ▸ hg)).1
    cases hch : ch with
    | nil => exact absurd hch (word_ne_nil hw)
    | cons c0 ch' =>
      refine ⟨c0, ch' ++ r.flatten, rfl, ?_⟩
      exact word_chars hw c0 (by rw [hch]; exact List.mem_cons_self c0 ch')

theorem line_ends_nonWs {cw : Nat} (L : List Str) (hg : goodChunks cw true L = true)
    (hne : L ≠ []) (hnf : nextFlag true L = false) : endsNonWs (lineChars L) := by
  obtain ⟨l', wl, he, hw⟩ := goodChunks_ends_word cw L true hg hne hnf
  rcases List.eq_nil_or_concat wl with hnil | ⟨wi, cl, hwl⟩
  · exact absurd hnil (word_ne_nil hw)
  · refine ⟨l'.flatten ++ wi, cl, ?_, ?_⟩
    · rw [show lineChars L = L.flatten from rfl, he, List.flatten_append]
      rw [show List.flatten [wl] = wl ++ [] from rfl, List.append_nil, hwl,
        List.concat_eq_append, List.append_assoc]
    · exact word_chars hw cl (by rw [hwl, List.concat_eq_append]; simp)

theorem nlLines_ends {cw : Nat} :
    ∀ (LS : List (List Str)), LS ≠ [] →
      (∀ L ∈ LS, L ≠ [] ∧ goodChunks cw true L = true ∧ nextFlag true L = false) →
      endsNonWs (nlLines LS) := by
  intro LS
  induction LS with
  | nil => intro h _; exact absurd rfl h
  | cons L LS' ih =>
    intro _ h
    rw [nlLines_cons]
    cases LS' with
    | nil =>
      rw [nlLines_nil, List.append_nil]
      obtain ⟨hne, hg, hnf⟩ := h L (List.mem_cons_self L [])
      exact endsNonWs_append _ (line_ends_nonWs L hg hne hnf)
    | cons a b =>
      exact endsNonWs_append _ (ih (List.cons_ne_nil a b)
        (fun L3 h3 => h L3 (List.mem_cons_of_mem L h3)))

theorem dropWhile_ws_append : ∀ (p m : Str), (∀ c ∈ p, pyIsSpace c = true) →
    (p ++ m).dropWhile pyIsSpace = m.dropWhile pyIsSpace := by
  intro p
  induction p with
  | nil => intro m _; rfl
  | cons c t ih =>
    intro m h
    rw [List.cons_append, List.dropWhile_cons]
    rw [if_pos (h c (List.mem_cons_self c t))]
    exact ih m (fun x hx => h x (List.mem_cons_of_mem c hx))

theorem pyStrip_ws_pre (p m : Str) (hp : ∀ c ∈ p, pyIsSpace c = true)
    (h1 : ∀ c t, m = c :: t → pyIsSpace c = false) (h2 : endsNonWs m) :
    pyStrip (p ++ m) = m := by
  unfold pyStrip
  rw [dropWhile_ws_append p m hp]
  obtain ⟨t, c, he, hc⟩ := h2
  have hm : m.dropWhile pyIsSpace = m := by
    cases hm : m with
    | nil => rfl
    | cons c0 t0 =>
      rw [List.dropWhile_cons, if_neg (by simp [h1 c0 t0 hm])]
  rw [hm, he, List.reverse_append, List.reverse_singleton, List.singleton_append]
  rw [List.dropWhile_cons, if_neg (by simp [hc])]
  rw [List.reverse_cons, List.reverse_reverse]

theorem flatten_interChunks :
    ∀ (LS : List (List Str)) (L : List Str),
      (interChunks (L :: LS)).flatten = lineChars L ++ spLines LS := by
  intro LS
  induction LS with
  | nil =>
    intro L
    rw [interChunks_single, spLines_nil, List.append_nil]
    rfl
  | cons L2 LS' ih =>
    intro L
    rw [interChunks_cons₂, spLines_cons, List.flatten_append, List.flatten_cons]
    rw [ih L2]
    rw [show lineChars L = L.flatten from rfl]
    simp [List.append_assoc]

theorem spLines_chars {cw : Nat} :
    ∀ (LS : List (List Str)), (∀ L ∈ LS, goodChunks cw true L = true) →
      ∀ c ∈ spLines LS, pyIsSpace c = false ∨ c = ' ' := by
  intro LS
  induction LS with
  | nil => intro _ c hc; exact absurd hc (List.not_mem_nil c)
  | cons L LS' ih =>
    intro h c hc
    rw [spLines_cons, List.append_assoc, List.mem_append] at hc
    rcases hc with hc | hc
    · right
      exact space_chars sp5_isSpace c hc
    · rw [List.mem_append] at hc
      rcases hc with hc | hc
      · exact goodChunks_chars L true (h L (List.mem_cons_self L LS')) c hc
      · exact ih (fun L3 h3 => h L3 (List.mem_cons_of_mem L h3)) c hc

theorem pyExpandTabsGo_id : ∀ (s : Str), (∀ c ∈ s, c ≠ '\t') → ∀ col,
    pyExpandTabsGo col s = s := by
  intro s
  induction s with
  | nil => intro _ col; rfl
  | cons c r ih =>
    intro h col
    have hct : (c == '\t') = false := by
      cases hcc : c == '\t'
      · rfl
      · rw [beq_iff_eq] at hcc
        exact absurd hcc (h c (List.mem_cons_self c r))
    rw [show pyExpandTabsGo col (c :: r) =
      (if c == '\t' then
        List.replicate (8 - col % 8) ' ' ++ pyExpandTabsGo (col + (8 - col % 8)) r
       else if c == '\n' || c == '\r' then c :: pyExpandTabsGo 0 r
       else c :: pyExpandTabsGo (col + 1) r) from rfl]
    rw [hct]
    simp only [Bool.false_eq_true, if_false]
    have hr := fun col => ih (fun x hx => h x (List.mem_cons_of_mem c hx)) col
    by_cases hnl : (c == '\n' || c == '\r') = true
    · rw [if_pos hnl, hr 0]
    · rw [if_neg hnl, hr (col + 1)]

theorem pyExpandTabs_id (s : Str) (h : ∀ c ∈ s, c ≠ '\t') : pyExpandTabs s = s :=
  pyExpandTabsGo_id s h 0

theorem map_ws_id : ∀ (s : Str), (∀ c ∈ s, pyIsSpace c = false ∨ c = ' ') →
    s.map (fun c => if pyIsSpace c then ' ' else c) = s := by
  intro s
  induction s with
  | nil => intro _; rfl
  | cons c t ih =>
    intro h
    rw [List.map_cons, ih (fun x hx => h x (List.mem_cons_of_mem c hx))]
    rcases h c (List.mem_cons_self c t) with hc | hc
    · rw [hc]
      simp
    · rw [hc]
      rfl

theorem munge_id (s : Str) (h : ∀ c ∈ s, pyIsSpace c = false ∨ c = ' ') : munge s = s := by
  unfold munge
  rw [pyExpandTabs_id s (fun c hc ht => by
    rcases h c hc with h1 | h1
    · rw [ht] at h1
      exact absurd h1 (by decide)
    · rw [ht] at h1
      exact absurd h1 (by decide))]
  exact map_ws_id s h

theorem drop_length_takeWhile (p : Char → Bool) : ∀ (l : Str),
    l.drop (l.takeWhile p).length = l.dropWhile p := by
  intro l
  induction l with
  | nil => rfl
  | cons c r ih =>
    rw [List.takeWhile_cons, List.dropWhile_cons]
    by_cases h : p c = true
    · rw [if_pos h, if_pos h, List.length_cons, List.drop_succ_cons, ih]
    · rw [if_neg h, if_neg h, List.length_nil, List.drop_zero]

theorem dropWhile_head_not (p : Char → Bool) : ∀ (l : Str) (c : Char) (r : Str),
    l.dropWhile p = c :: r → p c = false := by
  intro l
  induction l with
  | nil => intro c r h; cases h
  | cons a t ih =>
    intro c r h
    rw [List.dropWhile_cons] at h
    by_cases ha : p a = true
    · rw [if_pos ha] at h
      exact ih c r h
    · rw [if_neg ha] at h
      rw [List.cons_eq_cons] at h
      cases hpa : p a
      · rw [← h.1]
        exact hpa
      · exact absurd hpa ha

theorem matchHyphen_none (s : Str) (hd : '-' ∉ s) : matchHyphen s = none := by
  simp only [matchHyphen]
  split
  next c la heq =>
    have hc : c ∈ s := List.mem_of_mem_drop (by rw [heq]; exact List.mem_cons_self c la)
    have hne : (c == '-') = false := by
      cases hcc : c == '-'
      · rfl
      · rw [beq_iff_eq] at hcc
        exact absurd (hcc ▸ hc) hd
    rw [hne]
    simp
  next => rfl

theorem matchDash_none (prev : Option Char) (s : Str) (hd : '-' ∉ s) :
    matchDash prev s = none := by
  have h0 : s.takeWhile (fun c => c == '-') = [] := by
    cases s with
    | nil => rfl
    | cons a r =>
      rw [List.takeWhile_cons]
      have haa : (a == '-') = false := by
        cases haa : a == '-'
        · rfl
        · rw [beq_iff_eq] at haa
          exact absurd (haa ▸ List.mem_cons_self a r) hd
      rw [haa]
      simp
  cases prev with
  | none => rfl
  | some pc =>
    simp only [matchDash, h0]
    by_cases hb : dashBehind pc = true
    · rw [if_pos hb]
      cases s <;> simp
    · rw [if_neg hb]

theorem pySplitGo_nil (fuel : Nat) (prev : Option Char) (acc : Str) :
    pySplitGo fuel prev acc [] = if acc.isEmpty then [] else [acc] := by
  cases fuel <;> rfl

theorem pySplitGo_cons (fuel : Nat) (prev : Option Char) (acc : Str) (c : Char) (r : Str) :
    pySplitGo (fuel + 1) prev acc (c :: r) =
      if pyIsSpace c then
        (if acc.isEmpty then [] else [acc]) ++
          ((c :: r).takeWhile pyIsSpace) ::
            pySplitGo fuel (some (((c :: r).takeWhile pyIsSpace).getLastD ' ')) []
              ((c :: r).drop ((c :: r).takeWhile pyIsSpace).length)
      else
        match matchHyphen (c :: r) with
        | some n =>
          (if acc.isEmpty then [] else [acc]) ++
            ((c :: r).take n) :: pySplitGo fuel (some '-') [] ((c :: r).drop n)
        | none =>
          match matchDash prev (c :: r) with
          | some n =>
            (if acc.isEmpty then [] else [acc]) ++
              ((c :: r).take n) :: pySplitGo fuel (some '-') [] ((c :: r).drop n)
          | none => pySplitGo fuel (some c) (acc ++ [c]) r := rfl

theorem pySplitGo_plain (fuel : Nat) (prev : Option Char) (acc : Str) (c : Char) (r : Str)
    (hcf : pyIsSpace c = false)
    (hmh : matchHyphen (c :: r) = none) (hmd : matchDash prev (c :: r) = none) :
    pySplitGo (fuel + 1) prev acc (c :: r) = pySplitGo fuel (some c) (acc ++ [c]) r := by
  rw [pySplitGo_cons, if_neg (by simp [hcf]), hmh, hmd]

theorem pySplitGo_chunks : ∀ (fuel : Nat) (s : Str), s.length ≤ fuel → '-' ∉ s →
    (∀ prev, pySplitGo fuel prev [] s = chunksOf s) ∧
    (∀ prev (acc : Str), acc ≠ [] → (∀ c ∈ acc, pyIsSpace c = false) →
      pySplitGo fuel prev acc s = chunksGo false acc s) := by
  intro fuel
  induction fuel with
  | zero =>
    intro s hl _
    have hs : s = [] := List.eq_nil_of_length_eq_zero (Nat.le_zero.1 hl)
    subst hs
    refine ⟨fun prev => rfl, fun prev acc hne _ => ?_⟩
    rw [pySplitGo_nil, chunksGo_nil]
    cases acc with
    | nil => exact absurd rfl hne
    | cons a t => rfl
  | succ fuel ih =>
    intro s hl hd
    cases s with
    | nil =>
      refine ⟨fun prev => rfl, fun prev acc hne _ => ?_⟩
      rw [pySplitGo_nil, chunksGo_nil]
      cases acc with
      | nil => exact absurd rfl hne
      | cons a t => rfl
    | cons c r =>
      by_cases hc : pyIsSpace c = true
      · have hrun : (c :: r).takeWhile pyIsSpace = c :: r.takeWhile pyIsSpace := by
          rw [List.takeWhile_cons, if_pos hc]
        have hdropw : (c :: r).drop ((c :: r).takeWhile pyIsSpace).length =
            r.dropWhile pyIsSpace := by
          rw [drop_length_takeWhile, List.dropWhile_cons, if_pos hc]
        have hdlen : (r.dropWhile pyIsSpace).length ≤ fuel := by
          have h1 : (r.dropWhile pyIsSpace).length ≤ r.length := by
            rw [← drop_length_takeWhile pyIsSpace r, List.length_drop]
            omega
          rw [List.length_cons] at hl
          omega
        have hdmem : '-' ∉ r.dropWhile pyIsSpace := by
          intro hm
          exact hd (List.mem_of_mem_drop (hdropw.symm ▸ hm))
        have hcore : ∀ prevL,
            ((c :: r).takeWhile pyIsSpace) ::
              pySplitGo fuel prevL [] ((c :: r).drop ((c :: r).takeWhile pyIsSpace).length) =
            chunksGo true [c] r := by
          intro prevL
          rw [hdropw]
          have htw : ∀ x ∈ r.takeWhile pyIsSpace, pyIsSpace x = true :=
            fun x hx => List.mem_takeWhile_imp hx
          have hrsplit : r = r.takeWhile pyIsSpace ++ r.dropWhile pyIsSpace :=
            (List.takeWhile_append_dropWhile pyIsSpace r).symm
          conv_rhs => rw [hrsplit]
          rw [chunksGo_run (r.takeWhile pyIsSpace) (r.dropWhile pyIsSpace) [c] true htw]
          rw [show ([c] : List Char) ++ r.takeWhile pyIsSpace = c :: r.takeWhile pyIsSpace
            from rfl]
          rw [hrun]
          cases hrd : r.dropWhile pyIsSpace with
          | nil =>
            rw [chunksGo_nil, pySplitGo_nil]
            rfl
          | cons d rd2 =>
            have hdns : pyIsSpace d = false := dropWhile_head_not pyIsSpace r d rd2 hrd
            rw [chunksGo_break true (c :: r.takeWhile pyIsSpace) d rd2 (by rw [hdns]; simp)]
            rw [hdns]
            rw [(ih (d :: rd2) (hrd ▸ hdlen) (hrd ▸ hdmem)).1 prevL]
            rw [chunksOf_cons, hdns]
        constructor
        · intro prev
          rw [pySplitGo_cons, if_pos hc]
          rw [show (if ([] : Str).isEmpty then ([] : List Str) else [([] : Str)]) = []
            from rfl]
          rw [List.nil_append, hcore _]
          rw [chunksOf_cons, hc]
        · intro prev acc hne hnw
          rw [pySplitGo_cons, if_pos hc]
          have hae : acc.isEmpty = false := by
            cases acc with
            | nil => exact absurd rfl hne
            | cons a t => rfl
          rw [if_neg (by simp [hae]), hcore _]
          rw [chunksGo_break false acc c r (by rw [hc]; simp)]
          rw [hc, List.singleton_append]
      · have hcf : pyIsSpace c = false := by
          cases hpc : pyIsSpace c
          · rfl
          · exact absurd hpc hc
        have hmh : matchHyphen (c :: r) = none := matchHyphen_none (c :: r) hd
        have hmd : ∀ prev, matchDash prev (c :: r) = none :=
          fun prev => matchDash_none prev (c :: r) hd
        have hrd : '-' ∉ r := fun hm => hd (List.mem_cons_of_mem c hm)
        have hrl : r.length ≤ fuel := by
          rw [List.length_cons] at hl
          omega
        constructor
        · intro prev
          rw [pySplitGo_plain fuel prev [] c r hcf hmh (hmd prev), List.nil_append]
          rw [(ih r hrl hrd).2 (some c) [c] (by simp)
            (fun x hx => by rw [List.mem_singleton] at hx; rw [hx]; exact hcf)]
          rw [chunksOf_cons, hcf]
        · intro prev acc hne hnw
          rw [pySplitGo_plain fuel prev acc c r hcf hmh (hmd prev)]
          have hane : acc ++ [c] ≠ [] := by simp
          have hanw : ∀ x ∈ acc ++ [c], pyIsSpace x = false := by
            intro x hx
            rw [List.mem_append, List.mem_singleton] at hx
            rcases hx with hx | hx
            · exact hnw x hx
            · rw [hx]
              exact hcf
          rw [(ih r hrl hrd).2 (some c) (acc ++ [c]) hane hanw]
          rw [chunksGo_cons, hcf]
          rw [if_pos (by rfl)]

theorem pySplit_no_dash (s : Str) (hd : '-' ∉ s) : pySplit s = chunksOf s :=
  (pySplitGo_chunks s.length s le_rfl hd).1 none

theorem chunksGo_flatten : ∀ (s : Str) (k : Bool) (cur : Str),
    (chunksGo k cur s).flatten = cur ++ s := by
  intro s
  induction s with
  | nil => intro k cur; rw [chunksGo_nil]; simp
  | cons c r ih =>
    intro k cur
    rw [chunksGo_cons]
    by_cases h : (pyIsSpace c == k) = true
    · rw [if_pos h, ih]
      simp
    · rw [if_neg h, List.flatten_cons, ih]
      simp

theorem flatten_chunksOf : ∀ (s : Str), (chunksOf s).flatten = s := by
  intro s
  cases s with
  | nil => rfl
  | cons c r =>
    rw [chunksOf_cons, chunksGo_flatten]
    rfl


theorem stripjoinRaw_str (s : Str) : stripjoinRaw (TextVal.str s) = pyStrip s := rfl

theorem stripjoin_pos (w : Nat) (v : TextVal) (hw : w ≠ 0) :
    stripjoin w v =
      '\n' :: List.intercalate (lit "\n") (pyWrap w (collapseNL (stripjoinRaw v))) := by
  simp only [stripjoin, if_neg hw]

theorem pyWrapChunks_eq_WG (w : Nat) (t : Str) (h3 : 3 ≤ w) (hd : '-' ∉ munge t) :
    pyWrapChunks w t = WG (w - 3) (chunksOf (munge t)) := by
  have hc : (w : Int) - 3 = ((w - 3 : Nat) : Int) := by omega
  simp only [pyWrapChunks, WG, hc, pySplit_no_dash (munge t) hd]

theorem pyWrap_eq_WG (w : Nat) (t : Str) (h3 : 3 ≤ w) (hd : '-' ∉ munge t) :
    pyWrap w t = (WG (w - 3) (chunksOf (munge t))).map (fun l => lit "   " ++ lineChars l) := by
  unfold pyWrap
  rw [pyWrapChunks_eq_WG w t h3 hd]

theorem pyWrap_nil (w : Nat) : pyWrap w [] = [] := by
  unfold pyWrap
  simp only [pyWrapChunks]
  rw [show pySplit (munge ([] : Str)) = [] from rfl, wrapGo_nil, List.map_nil]

/-- Re-parsing the rendered wrapped output (strip, collapse newlines,
munge): the string recovered is the lines' characters joined by five-space
separators. -/
theorem refill_string {cw : Nat} (LS : List (List Str)) (L : List Str)
    (hWF : ∀ L3 ∈ L :: LS, L3 ≠ [] ∧ goodChunks cw true L3 = true ∧ nextFlag true L3 = false) :
    munge (collapseNL (pyStrip ('\n' ::
        List.intercalate (lit "\n") ((L :: LS).map (fun l => lit "   " ++ lineChars l))))) =
      lineChars L ++ spLines LS := by
  obtain ⟨hLne, hLg, hLnf⟩ := hWF L (List.mem_cons_self L LS)
  have hgood : ∀ L3 ∈ L :: LS, goodChunks cw true L3 = true := fun L3 h3 => (hWF L3 h3).2.1
  rw [intercalate_indent]
  have e1 : '\n' :: (lit "   " ++ lineChars L ++ nlLines LS) =
      lit "\n   " ++ (lineChars L ++ nlLines LS) := by
    rw [show (lit "\n   " : Str) = '\n' :: lit "   " from rfl, List.cons_append,
      List.append_assoc]
  rw [e1]
  obtain ⟨c0, t0, he0, hc0⟩ := line_head_char L hLg hLne
  have hps : pyStrip (lit "\n   " ++ (lineChars L ++ nlLines LS)) = lineChars L ++ nlLines LS := by
    apply pyStrip_ws_pre
    · decide
    · intro c t him
      rw [he0, List.cons_append, List.cons_eq_cons] at him
      rw [← him.1]
      exact hc0
    · cases LS with
      | nil =>
        rw [nlLines_nil, List.append_nil]
        exact line_ends_nonWs L hLg hLne hLnf
      | cons a b =>
        exact endsNonWs_append _ (nlLines_ends (a :: b) (List.cons_ne_nil a b)
          (fun L3 h3 => hWF L3 (List.mem_cons_of_mem L h3)))
  rw [hps]
  rw [show collapseNL (lineChars L ++ nlLines LS) =
    collapseNLGo false (lineChars L ++ nlLines LS) from rfl]
  rw [collapseNLGo_nf (lineChars L) (nlLines LS) (goodChunks_no_nl L true hLg)]
  rw [collapseNL_nlLines LS (fun L3 h3 => hgood L3 (List.mem_cons_of_mem L h3))]
  exact munge_id (lineChars L ++ spLines LS) (by
    intro c hc
    rw [List.mem_append] at hc
    rcases hc with hc | hc
    · exact goodChunks_chars L true hLg c hc
    · exact spLines_chars LS (fun L3 h3 => hgood L3 (List.mem_cons_of_mem L h3)) c hc)

/-- Re-parsing the rendered wrapped output (strip, collapse newlines, munge,
split) recovers exactly the lines' chunks joined by five-space separators. -/
theorem refill_input {cw : Nat} (LS : List (List Str)) (L : List Str)
    (hWF : ∀ L3 ∈ L :: LS, L3 ≠ [] ∧ goodChunks cw true L3 = true ∧ nextFlag true L3 = false) :
    chunksOf (munge (collapseNL (pyStrip ('\n' ::
        List.intercalate (lit "\n") ((L :: LS).map (fun l => lit "   " ++ lineChars l)))))) =
      interChunks (L :: LS) := by
  rw [refill_string LS L hWF, ← flatten_interChunks LS L]
  exact chunksOf_good (interChunks (L :: LS)) true
    (interChunks_good (L :: LS) (fun L3 h3 => ⟨(hWF L3 h3).1, (hWF L3 h3).2.1, (hWF L3 h3).2.2⟩))

theorem dropTrailingWs_concat_notws (l : List Str) (a : Str) (h : isWsChunk a = false) :
    dropTrailingWs (l ++ [a]) = l ++ [a] := by
  unfold dropTrailingWs
  rw [List.reverse_append]
  simp only [List.reverse_cons, List.reverse_nil, List.nil_append, List.singleton_append]
  rw [h]
  simp

theorem dropTrailingWs_mem (t : List Str) (ch : Str) (h : ch ∈ dropTrailingWs t) : ch ∈ t := by
  rcases List.eq_nil_or_concat t with ht | ⟨t2, a, ht⟩
  · subst ht
    rw [show dropTrailingWs ([] : List Str) = [] from rfl] at h
    exact absurd h (List.not_mem_nil ch)
  · rw [List.concat_eq_append] at ht
    subst ht
    by_cases hw : isWsChunk a = true
    · rw [dropTrailingWs_concat_space t2 a hw] at h
      exact List.mem_append_left _ h
    · rw [dropTrailingWs_concat_notws t2 a (by simpa using hw)] at h
      exact h

/-- The chunks of the line the first wrap step emits are elements of the
input chunk list (under the well-formedness guard there is no long-word
breaking, so `_handle_long_word` never splits a chunk). -/
theorem wrapStep_sub {cw : Nat} (h5 : 5 ≤ cw) (N : List Str)
    (hN : goodChunks cw true N = true) (hne : N ≠ []) (L R : List Str)
    (hstep : wrapStep (cw : Int) false N = (some L, R)) :
    ∀ ch ∈ L, ch ∈ N := by
  cases N with
  | nil => exact absurd rfl hne
  | cons n1 N2 =>
    obtain ⟨hw1, hl1, hgood2⟩ := goodChunks_cons_true.1 hN
    have hws := word_not_ws hw1
    obtain ⟨t, r, hfill, hsplit, hle, hbreak⟩ := fillLine_spec (cw : Int) (n1 :: N2) [] 0
    rw [List.nil_append] at hfill
    have hgN2 : goodChunks cw true (t ++ r) = true := by rw [← hsplit]; exact hN
    obtain ⟨hgt, hgr⟩ := goodChunks_split cw t r true hgN2
    have hnolong : ∀ ch r2, r = ch :: r2 → ¬((ch.length : Int) > (cw : Int)) := by
      intro ch r2 hr
      have hch : ch.length ≤ cw :=
        goodChunks_all_le h5 r _ hgr ch (by rw [hr]; exact List.mem_cons_self ch r2)
      omega
    have heval := wrapStep_eval (cw : Int) false n1 N2 hws t (0 + sumLen t) r hfill hnolong
    rw [heval, Prod.mk.injEq] at hstep
    obtain ⟨h1, h2⟩ := hstep
    have hL : L = dropTrailingWs t := by
      by_cases he : (dropTrailingWs t).isEmpty = true
      · rw [if_pos he] at h1
        exact absurd h1 (by simp)
      · rw [if_neg he] at h1
        exact (Option.some.inj h1).symm
    intro ch hch
    rw [hL] at hch
    rw [hsplit]
    exact List.mem_append_left r (dropTrailingWs_mem t ch hch)

/-- Every chunk of every line of a wrap run is an element of the input
chunk list. -/
theorem WG_chars {cw : Nat} (h5 : 5 ≤ cw) :
    ∀ (n : Nat) (N : List Str), mes N ≤ n → goodChunks cw true N = true →
      ∀ L ∈ WG cw N, ∀ ch ∈ L, ch ∈ N := by
  intro n
  induction n with
  | zero =>
    intro N hm _ L hL
    have hN0 : N = [] := by
      cases N with
      | nil => rfl
      | cons c t => rw [mes_cons] at hm; omega
    rw [hN0, WG_nil] at hL
    exact absurd hL (List.not_mem_nil L)
  | succ n ih =>
    intro N hm hN L hL ch hch
    by_cases hNe : N = []
    · rw [hNe, WG_nil] at hL
      exact absurd hL (List.not_mem_nil L)
    · obtain ⟨L1, R, hstep, hLne, hLhead, hLgood, hLnf, hLsum, hcase⟩ := WG_cases h5 N hN hNe
      have hsub : ∀ x ∈ L1, x ∈ N := wrapStep_sub h5 N hN hNe L1 R (hstep false)
      rcases hcase with ⟨_, hWG⟩ | ⟨s, R1, _, _, _, hNd, hgR1, _, hWG, hmes⟩ |
        ⟨s, w, R2, _, _, _, _, hNd, hgR, _, _, hWG, hmes⟩
      · rw [hWG, List.mem_singleton] at hL
        exact hsub ch (hL ▸ hch)
      · rw [hWG, List.mem_cons] at hL
        rcases hL with hL | hL
        · exact hsub ch (hL ▸ hch)
        · have hmm := ih R1 (by omega) hgR1 L hL ch hch
          rw [hNd]
          exact List.mem_append_right _ (List.mem_cons_of_mem _ hmm)
      · rw [hWG, List.mem_cons] at hL
        rcases hL with hL | hL
        · exact hsub ch (hL ▸ hch)
        · have hmm := ih (w :: R2) (by omega) hgR L hL ch hch
          rw [hNd]
          exact List.mem_append_right _ (List.mem_cons_of_mem _ hmm)

/-- Every character of every line of a wrap run occurs in the input text
(the flattened chunk list). -/
theorem WG_flat_chars {cw : Nat} (h5 : 5 ≤ cw) (N : List Str)
    (hN : goodChunks cw true N = true) :
    ∀ L ∈ WG cw N, ∀ c ∈ lineChars L, c ∈ N.flatten := by
  intro L hL c hc
  rw [show lineChars L = L.flatten from rfl, List.mem_flatten] at hc
  obtain ⟨ch, hch, hcch⟩ := hc
  rw [List.mem_flatten]
  exact ⟨ch, WG_chars h5 (mes N) N le_rfl hN L hL ch hch, hcch⟩

theorem spLines_mem : ∀ (LS : List (List Str)) (c : Char), c ∈ spLines LS →
    c = ' ' ∨ ∃ L3 ∈ LS, c ∈ lineChars L3 := by
  intro LS
  induction LS with
  | nil => intro c hc; exact absurd hc (List.not_mem_nil c)
  | cons L r ih =>
    intro c hc
    rw [spLines_cons, List.append_assoc, List.mem_append] at hc
    rcases hc with hc | hc
    · exact Or.inl (space_chars sp5_isSpace c hc)
    · rw [List.mem_append] at hc
      rcases hc with hc | hc
      · exact Or.inr ⟨L, List.mem_cons_self L r, hc⟩
      · rcases ih c hc with h | ⟨L3, hL3, hcL⟩
        · exact Or.inl h
        · exact Or.inr ⟨L3, List.mem_cons_of_mem L hL3, hcL⟩

/-- Guarded idempotence of `_stripjoin` at the string level: when the total
width is at least 8 and the normalized text has no hyphen, starts with a
non-whitespace character and splits into fitting runs (words no longer
than the content width, whitespace runs no longer than five), re-wrapping
the wrapped output reproduces it exactly. -/
theorem stripjoin_refill (w : Nat) (v : TextVal) (hw : 8 ≤ w)
    (hd : '-' ∉ munge (collapseNL (stripjoinRaw v)))
    (hg : goodChunks (w - 3) true (chunksOf (munge (collapseNL (stripjoinRaw v)))) = true) :
    stripjoin w (TextVal.str (stripjoin w v)) = stripjoin w v := by
  have hw0 : w ≠ 0 := by omega
  have h3 : 3 ≤ w := by omega
  have h5 : 5 ≤ w - 3 := by omega
  have h1 : stripjoin w v = '\n' :: List.intercalate (lit "\n")
      ((WG (w - 3) (chunksOf (munge (collapseNL (stripjoinRaw v))))).map
        (fun l => lit "   " ++ lineChars l)) := by
    rw [stripjoin_pos w v hw0, pyWrap_eq_WG w _ h3 hd]
  cases hLS : WG (w - 3) (chunksOf (munge (collapseNL (stripjoinRaw v)))) with
  | nil =>
    rw [h1, hLS]
    show stripjoin w (TextVal.str ['\n']) = ['\n']
    rw [stripjoin_pos w _ hw0, stripjoinRaw_str]
    rw [show pyStrip ['\n'] = [] from by decide]
    rw [show collapseNL [] = [] from rfl]
    rw [pyWrap_nil]
    rfl
  | cons L LS2 =>
    rw [h1, hLS]
    rw [stripjoin_pos w _ hw0, stripjoinRaw_str]
    congr 1
    have hWF : ∀ L3 ∈ L :: LS2, L3 ≠ [] ∧ goodChunks (w - 3) true L3 = true ∧
        nextFlag true L3 = false := by
      intro L3 h3m
      have := WG_linesWF h5 (mes (chunksOf (munge (collapseNL (stripjoinRaw v)))))
        (chunksOf (munge (collapseNL (stripjoinRaw v)))) le_rfl hg L3 (by rw [hLS]; exact h3m)
      exact ⟨this.1, this.2.1, this.2.2.1⟩
    have hstr := refill_string LS2 L hWF
    have hd2 : '-' ∉ munge (collapseNL (pyStrip ('\n' ::
        List.intercalate (lit "\n") ((L :: LS2).map (fun l => lit "   " ++ lineChars l))))) := by
      rw [hstr]
      intro hm
      rw [List.mem_append] at hm
      have hflat : '-' ∉ (chunksOf (munge (collapseNL (stripjoinRaw v)))).flatten := by
        rw [flatten_chunksOf]
        exact hd
      rcases hm with hm | hm
      · exact hflat (WG_flat_chars h5 _ hg L (by rw [hLS]; exact List.mem_cons_self L LS2)
          '-' hm)
      · rcases spLines_mem LS2 '-' hm with h | ⟨L3, hL3, hcL⟩
        · exact absurd h (by decide)
        · exact hflat (WG_flat_chars h5 _ hg L3
            (by rw [hLS]; exact List.mem_cons_of_mem L hL3) '-' hcL)
    rw [pyWrap_eq_WG w _ h3 hd2]
    rw [refill_input LS2 L hWF]
    rw [← hLS]
    rw [WG_refill h5 (mes (chunksOf (munge (collapseNL (stripjoinRaw v)))))
      (chunksOf (munge (collapseNL (stripjoinRaw v)))) le_rfl hg]

/-- C2: the spec claims `_stripjoin`'s wrapping is idempotent for every
input and every positive width.  That is false in general (see
`C2_counterexample`: a broken long word leaves a trailing space the second
pass strips, a wide whitespace run wraps away and lines re-merge, kept
leading whitespace is stripped by the second pass, a tab expands to a wide
space run).  The corrected statement proved here: re-wrapping the wrapped
output reproduces it exactly whenever the width is at least 8 and the
normalized text (fragments stripped and joined, newline runs collapsed,
tabs expanded, whitespace mapped to spaces) contains no `-` (so
`wordsep_re`'s hyphen and em-dash alternatives never fire) and its chunk
sequence is word-first and fits the width (maximal non-whitespace runs no
longer than width − 3, maximal whitespace runs no longer than 5); and
wrapping with width 0 (falsy `self.w`) returns the newline-collapsed
single-line string, which contains no newline at all. -/
theorem C2_wrap_idempotent (w : Nat) (v : TextVal) :
    (8 ≤ w → '-' ∉ munge (collapseNL (stripjoinRaw v)) →
      goodChunks (w - 3) true (pySplit (munge (collapseNL (stripjoinRaw v)))) = true →
      stripjoin w (TextVal.str (stripjoin w v)) = stripjoin w v) ∧
    (stripjoin 0 v = collapseNL (stripjoinRaw v) ∧ ∀ c ∈ stripjoin 0 v, c ≠ '\n') := by
  refine ⟨fun hw hd hg => stripjoin_refill w v hw hd ?_, rfl, ?_⟩
  · rw [← pySplit_no_dash _ hd]
    exact hg
  · intro c hc
    exact collapseNLGo_no_nl (stripjoinRaw v) false c hc

/-- C2 counterexample: wrapping is not idempotent in general.  At width 6
the long word `cdef` is broken and leaves the first pass's line `ab ` with
a trailing space that the second pass removes; at width 13 the eight-space
run is wrapped away and the two passes' lines re-merge into one; a list
input with an empty first fragment keeps its leading whitespace on the
first pass (the whitespace drop in `_wrap_chunks` is guarded by
`and lines`) and loses it on the second; a tab expands to a seven-space
run that wraps away, and the two lines re-merge. -/
theorem C2_counterexample :
    stripjoin 6 (TextVal.str (stripjoin 6 (TextVal.str (lit "ab cdef")))) ≠
        stripjoin 6 (TextVal.str (lit "ab cdef")) ∧
      stripjoin 6 (TextVal.str (lit "ab cdef")) = lit "\n   ab \n   cde\n   f" ∧
      stripjoin 6 (TextVal.str (stripjoin 6 (TextVal.str (lit "ab cdef")))) =
        lit "\n   ab\n   cde\n   f" ∧
      stripjoin 13 (TextVal.str (stripjoin 13 (TextVal.str (lit "abc        de")))) ≠
        stripjoin 13 (TextVal.str (lit "abc        de")) ∧
      stripjoin 13 (TextVal.str (lit "abc        de")) = lit "\n   abc\n   de" ∧
      stripjoin 13 (TextVal.str (stripjoin 13 (TextVal.str (lit "abc        de")))) =
        lit "\n   abc     de" ∧
      stripjoin 10 (TextVal.str (stripjoin 10 (TextVal.list [lit "", lit "ab"]))) ≠
        stripjoin 10 (TextVal.list [lit "", lit "ab"]) ∧
      stripjoin 10 (TextVal.list [lit "", lit "ab"]) = lit "\n     ab" ∧
      stripjoin 10 (TextVal.str (stripjoin 10 (TextVal.list [lit "", lit "ab"]))) =
        lit "\n   ab" ∧
      stripjoin 10 (TextVal.str (stripjoin 10 (TextVal.str ['a', '\t', 'b']))) ≠
        stripjoin 10 (TextVal.str ['a', '\t', 'b']) ∧
      stripjoin 10 (TextVal.str ['a', '\t', 'b']) = lit "\n   a\n   b" ∧
      stripjoin 10 (TextVal.str (stripjoin 10 (TextVal.str ['a', '\t', 'b']))) =
        lit "\n   a     b" := by
  refine ⟨by decide, by decide, by decide, by decide, by decide, by decide, by decide,
    by decide, by decide, by decide, by decide, by decide⟩

/-- C2 witness: at width 10 the hyphen-free, word-first, fitting text
`abc def gh` wraps idempotently. -/
theorem C2_wrap_idempotent_witness :
    stripjoin 10 (TextVal.str (stripjoin 10 (TextVal.str (lit "abc def gh")))) =
      stripjoin 10 (TextVal.str (lit "abc def gh")) :=
  (C2_wrap_idempotent 10 (TextVal.str (lit "abc def gh"))).1 (by decide) (by decide) (by decide)
